import Mathlib

/-! # Representation of integers and floating point numbers

A shallow embedding of `Integers.cpp` and `FloatingPoint.cpp`.

* Integer literals are read digit by digit in their radix; `int` and `unsigned int`
  are 32-bit words, with arithmetic on `unsigned int` taken modulo `2 ^ 32`.
* A `float` is its 32-bit pattern (a `double` its 64-bit pattern).  The value of a
  pattern is the rational number given by the formula of `FloatingPoint.cpp`,
  `(-1)^s * (1.F)_2 * 2^(e-127)`, and every arithmetic operation computes the exact
  rational result and rounds it to the nearest pattern, ties to even.
* The two demonstration routines are embedded as the list of items they write to
  standard output.
-/

/-! ## Integers -/

/-- The value of one digit of a literal, by character code: `0`-`9` are the codes 48-57,
`A`-`F` the codes 65-70 and `a`-`f` the codes 97-102; the digits A-F stand for 10-15. -/
def digitValue (c : Char) : Option Nat :=
  let n := c.toNat
  if n < 48 then none
  else if n < 58 then some (n - 48)
  else if n < 65 then none
  else if n < 71 then some (10 + (n - 65))
  else if n < 97 then none
  else if n < 103 then some (10 + (n - 97))
  else none

/-- Read a digit string in the given base, most significant digit first. -/
def readDigits (base : Nat) : List Char → Nat → Option Nat
  | [], acc => some acc
  | c :: cs, acc =>
    match digitValue c with
    | some v => if v < base then readDigits base cs (acc * base + v) else none
    | none => none

/-- The value of a C++ integer literal: `0x` starts a hexadecimal literal, `0b` a
binary literal, a leading `0` an octal literal, anything else is decimal. -/
def intLiteral (s : String) : Option Nat :=
  match s.toList with
  | '0' :: 'x' :: d :: ds => readDigits 16 (d :: ds) 0
  | '0' :: 'X' :: d :: ds => readDigits 16 (d :: ds) 0
  | '0' :: 'b' :: d :: ds => readDigits 2 (d :: ds) 0
  | '0' :: 'B' :: d :: ds => readDigits 2 (d :: ds) 0
  | '0' :: ds => readDigits 8 ds 0
  | d :: ds => readDigits 10 (d :: ds) 0
  | [] => none

/-- The two's-complement reading of an `n`-bit word as a signed integer. -/
def toSigned (n : Nat) (w : Nat) : Int :=
  if w % 2 ^ n < 2 ^ (n - 1) then ((w % 2 ^ n : Nat) : Int) else ((w % 2 ^ n : Nat) : Int) - 2 ^ n

/-- Conversion of an integer to an `n`-bit unsigned word: reduction modulo `2 ^ n`. -/
def toUnsigned (n : Nat) (z : Int) : Nat :=
  (z % 2 ^ n).toNat

/-- The operator `^` on `unsigned int`. -/
def xor32 (a b : Nat) : Nat :=
  (a ^^^ b) % 2 ^ 32

/-- The operator `~` on `unsigned int`. -/
def not32 (a : Nat) : Nat :=
  xor32 a 0xFFFFFFFF

/-- The operator `+` on `unsigned int`: addition wraps around. -/
def add32 (a b : Nat) : Nat :=
  (a + b) % 2 ^ 32

/-- The target: `sizeof(long)` is 4 or 8 depending on compiler and architecture. -/
structure Target where
  longBytes : Nat

/-- Modelled from the spec: `USHRT_MAX` of `<climits>`, which is not part of the sources. -/
def USHRT_MAX : Nat := 0xffff

/-- Modelled from the spec: `SHRT_MIN` of `<climits>`, which is not part of the sources. -/
def SHRT_MIN : Int := -32768

/-- Modelled from the spec: `SHRT_MAX` of `<climits>`, which is not part of the sources. -/
def SHRT_MAX : Int := 32767

/-- Modelled from the spec: `UINT_MAX` of `<climits>`, which is not part of the sources. -/
def UINT_MAX : Nat := 0xffffffff

/-- Modelled from the spec: `INT_MIN` of `<climits>`, which is not part of the sources. -/
def INT_MIN : Int := -2147483647 - 1

/-- Modelled from the spec: `INT_MAX` of `<climits>`, which is not part of the sources. -/
def INT_MAX : Int := 2147483647

/-- Modelled from the spec: `ULLONG_MAX` of `<climits>`, which is not part of the sources. -/
def ULLONG_MAX : Nat := 0xffffffffffffffff

/-- Modelled from the spec: `LLONG_MIN` of `<climits>`, which is not part of the sources. -/
def LLONG_MIN : Int := -9223372036854775807 - 1

/-- Modelled from the spec: `LLONG_MAX` of `<climits>`, which is not part of the sources. -/
def LLONG_MAX : Int := 9223372036854775807

/-- Modelled from the spec: `ULONG_MAX` of `<climits>`, which is not part of the sources;
it is `UINT_MAX` where `long` has 4 bytes and `ULLONG_MAX` where it has 8. -/
def ULONG_MAX (t : Target) : Nat :=
  if t.longBytes = 4 then 0xffffffff else 0xffffffffffffffff

/-- Modelled from the spec: `LONG_MIN` of `<climits>`, which is not part of the sources. -/
def LONG_MIN (t : Target) : Int :=
  if t.longBytes = 4 then -2147483647 - 1 else -9223372036854775807 - 1

/-- Modelled from the spec: `LONG_MAX` of `<climits>`, which is not part of the sources. -/
def LONG_MAX (t : Target) : Int :=
  if t.longBytes = 4 then 2147483647 else 9223372036854775807

/-! ## Floating point formats -/

/-- A binary interchange format: one sign bit, `ebits` exponent bits, `fbits`
significand bits. -/
structure FloatFormat where
  ebits : Nat
  fbits : Nat

/-- Single precision: 1 sign bit, 8 exponent bits, 23 significand bits. -/
def binary32 : FloatFormat := ⟨8, 23⟩

/-- Double precision: 1 sign bit, 11 exponent bits, 52 significand bits. -/
def binary64 : FloatFormat := ⟨11, 52⟩

namespace FloatFormat

/-- The number subtracted from the exponent field (127 in single precision). -/
def bias (φ : FloatFormat) : Nat :=
  2 ^ (φ.ebits - 1) - 1

/-- The exponent field with all bits set (0xFF in single precision). -/
def expMax (φ : FloatFormat) : Nat :=
  2 ^ φ.ebits - 1

/-- The sign bit of a pattern. -/
def signBit (φ : FloatFormat) (b : Nat) : Nat :=
  b / 2 ^ (φ.ebits + φ.fbits) % 2

/-- The exponent field of a pattern. -/
def expField (φ : FloatFormat) (b : Nat) : Nat :=
  b / 2 ^ φ.fbits % 2 ^ φ.ebits

/-- The significand field `F` of a pattern. -/
def fracField (φ : FloatFormat) (b : Nat) : Nat :=
  b % 2 ^ φ.fbits

/-- Exponent field `0x01..0xFE`: a normalized value. -/
def isNormal (φ : FloatFormat) (b : Nat) : Bool :=
  decide (0 < φ.expField b ∧ φ.expField b < φ.expMax)

/-- Exponent field other than `0xFF`: zero, denormal or normalized. -/
def isFinite (φ : FloatFormat) (b : Nat) : Bool :=
  decide (φ.expField b < φ.expMax)

/-- Exponent field `0xFF` and significand non-zero. -/
def isNaN (φ : FloatFormat) (b : Nat) : Bool :=
  decide (φ.expField b = φ.expMax ∧ φ.fracField b ≠ 0)

/-- The value of a pattern: `(-1)^s * (1.F)_2 * 2^(e-bias)` for a normalized pattern,
`(-1)^s * (0.F)_2 * 2^(1-bias)` for zero and the denormal numbers, and no number for
the infinities and NaN. -/
def decode (φ : FloatFormat) (b : Nat) : Option ℚ :=
  if φ.expField b = φ.expMax then none
  else if φ.expField b = 0 then
    some ((-1) ^ φ.signBit b * ((φ.fracField b : ℚ) / 2 ^ φ.fbits)
      * 2 ^ ((1 : ℤ) - (φ.bias : ℤ)))
  else
    some ((-1) ^ φ.signBit b * (1 + (φ.fracField b : ℚ) / 2 ^ φ.fbits)
      * 2 ^ ((φ.expField b : ℤ) - (φ.bias : ℤ)))

/-- The number of bits of a natural number (`fuel` bounds the number of halvings). -/
def bitLen : Nat → Nat → Nat
  | 0, _ => 0
  | fuel + 1, n => if n = 0 then 0 else bitLen fuel (n / 2) + 1

/-- Candidate-by-candidate integer square root: the bits `k-1, ..., 0` are tried in turn. -/
def isqrtAux (n : Nat) : Nat → Nat → Nat
  | 0, r => r
  | k + 1, r => if (r + 2 ^ k) * (r + 2 ^ k) ≤ n then isqrtAux n k (r + 2 ^ k) else isqrtAux n k r

/-- The integer square root, the greatest `r` with `r * r ≤ n`. -/
def isqrt (n : Nat) : Nat :=
  isqrtAux n (bitLen n n) 0

/-- All finite values are whole multiples of `2 ^ (-unitExp)`, the least denormal number
(`2 ^ (-149)` in single precision). -/
def unitExp (φ : FloatFormat) : Nat :=
  φ.bias - 1 + φ.fbits

/-- The magnitude of a pattern counted in multiples of `2 ^ (-unitExp)`. -/
def mag (φ : FloatFormat) (b : Nat) : Nat :=
  if φ.expField b = 0 then φ.fracField b
  else (2 ^ φ.fbits + φ.fracField b) * 2 ^ (φ.expField b - 1)

/-- The signed magnitude of a pattern; it orders the patterns that are not NaN. -/
def key (φ : FloatFormat) (b : Nat) : Int :=
  if φ.signBit b = 1 then -(φ.mag b : Int) else (φ.mag b : Int)

/-- The pattern of the sign bit alone (negative zero). -/
def signMask (φ : FloatFormat) : Nat :=
  2 ^ (φ.ebits + φ.fbits)

/-- The pattern of positive infinity. -/
def inf (φ : FloatFormat) : Nat :=
  φ.expMax * 2 ^ φ.fbits

/-- The pattern of the default quiet NaN. -/
def qNaN (φ : FloatFormat) : Nat :=
  φ.inf + 2 ^ (φ.fbits - 1)

/-- Round the non-negative rational `n / d` to the nearest pattern, ties to the even
significand; a result beyond the largest finite value becomes infinity. -/
def roundMag (φ : FloatFormat) (n d : Nat) : Nat :=
  let N := n * 2 ^ φ.unitExp
  let s := bitLen (N / d) (N / d) - (φ.fbits + 1)
  let D := d * 2 ^ s
  let m := N / D
  let r := N % D
  let m' := if D < 2 * r ∨ (2 * r = D ∧ m % 2 = 1) then m + 1 else m
  let bits := s * 2 ^ φ.fbits + m'
  if φ.inf ≤ bits then φ.inf else bits

/-- Round the rational `n / d`, negated when `neg` is set, to the nearest pattern. -/
def round (φ : FloatFormat) (neg : Bool) (n d : Nat) : Nat :=
  (if neg then φ.signMask else 0) + φ.roundMag n d

/-- The pattern of the positive decimal literal with value `n / d`. -/
def lit (φ : FloatFormat) (n d : Nat) : Nat :=
  φ.round false n d

/-- Unary minus: the sign bit is flipped. -/
def neg (φ : FloatFormat) (a : Nat) : Nat :=
  if φ.signBit a = 1 then a - φ.signMask else a + φ.signMask

/-- The pattern of infinity with the given sign bit. -/
def infOf (φ : FloatFormat) (s : Nat) : Nat :=
  (if s = 1 then φ.signMask else 0) + φ.inf

/-- The operator `*`. -/
def mul (φ : FloatFormat) (a b : Nat) : Nat :=
  let s := (φ.signBit a + φ.signBit b) % 2
  if φ.isNaN a || φ.isNaN b then φ.qNaN
  else if φ.isFinite a && φ.isFinite b then
    φ.round (decide (s = 1)) (φ.mag a * φ.mag b) (2 ^ (2 * φ.unitExp))
  else if φ.mag a = 0 ∨ φ.mag b = 0 then φ.qNaN
  else φ.infOf s

/-- The operator `+`. -/
def add (φ : FloatFormat) (a b : Nat) : Nat :=
  if φ.isNaN a || φ.isNaN b then φ.qNaN
  else if φ.isFinite a && φ.isFinite b then
    if φ.key a + φ.key b = 0 then
      (if φ.signBit a = 1 ∧ φ.signBit b = 1 then φ.signMask else 0)
    else
      φ.round (decide (φ.key a + φ.key b < 0)) (φ.key a + φ.key b).natAbs (2 ^ φ.unitExp)
  else if φ.isFinite b then a
  else if φ.isFinite a then b
  else if φ.signBit a = φ.signBit b then a
  else φ.qNaN

/-- The operator `/`. -/
def div (φ : FloatFormat) (a b : Nat) : Nat :=
  let s := (φ.signBit a + φ.signBit b) % 2
  if φ.isNaN a || φ.isNaN b then φ.qNaN
  else if φ.isFinite a && φ.isFinite b then
    if φ.mag b = 0 then (if φ.mag a = 0 then φ.qNaN else φ.infOf s)
    else φ.round (decide (s = 1)) (φ.mag a) (φ.mag b)
  else if φ.isFinite b then φ.infOf s
  else if φ.isFinite a then (if s = 1 then φ.signMask else 0)
  else φ.qNaN

/-- The square root, correctly rounded: the root is taken to `unitExp + fbits + 4`
binary places and one more bit records whether anything was cut off. -/
def sqrt (φ : FloatFormat) (a : Nat) : Nat :=
  let p := φ.unitExp + φ.fbits + 4
  let n := φ.mag a * 2 ^ (2 * p - φ.unitExp)
  if φ.isNaN a then φ.qNaN
  else if φ.mag a = 0 then a
  else if φ.signBit a = 1 then φ.qNaN
  else if φ.isFinite a then
    φ.round false (2 * isqrt n + (if isqrt n * isqrt n = n then 0 else 1)) (2 ^ (p + 1))
  else a

/-- The operator `==`: false when an operand is NaN; the two zeros are equal. -/
def eq (φ : FloatFormat) (a b : Nat) : Bool :=
  !φ.isNaN a && !φ.isNaN b && decide (φ.key a = φ.key b)

/-- The operator `<=`: false when an operand is NaN. -/
def le (φ : FloatFormat) (a b : Nat) : Bool :=
  !φ.isNaN a && !φ.isNaN b && decide (φ.key a ≤ φ.key b)

end FloatFormat

/-! ## The constants of `<cfloat>` -/

/-- Modelled from the spec: `FLT_MAX` of `<cfloat>`, which is not part of the sources;
the literal `3.40282347E+38F`. -/
def FLT_MAX : Nat := binary32.lit (340282347 * 10 ^ 30) 1

/-- Modelled from the spec: `FLT_MIN` of `<cfloat>`, which is not part of the sources;
the literal `1.17549435E-38F`. -/
def FLT_MIN : Nat := binary32.lit 117549435 (10 ^ 46)

/-- Modelled from the spec: `FLT_TRUE_MIN` of `<cfloat>`, which is not part of the sources;
the literal `1.40129846E-45F`. -/
def FLT_TRUE_MIN : Nat := binary32.lit 140129846 (10 ^ 53)

/-- Modelled from the spec: `FLT_EPSILON` of `<cfloat>`, which is not part of the sources;
the literal `1.19209290E-07F`. -/
def FLT_EPSILON : Nat := binary32.lit 119209290 (10 ^ 15)

/-- Modelled from the spec: `DBL_MAX` of `<cfloat>`, which is not part of the sources;
the literal `1.7976931348623157E+308`. -/
def DBL_MAX : Nat := binary64.lit (17976931348623157 * 10 ^ 292) 1

/-- Modelled from the spec: `DBL_MIN` of `<cfloat>`, which is not part of the sources;
the literal `2.2250738585072014E-308`. -/
def DBL_MIN : Nat := binary64.lit 22250738585072014 (10 ^ 324)

/-- Modelled from the spec: `DBL_TRUE_MIN` of `<cfloat>`, which is not part of the sources;
the literal `4.9406564584124654E-324`. -/
def DBL_TRUE_MIN : Nat := binary64.lit 49406564584124654 (10 ^ 340)

/-! ## The demonstration routines -/

/-- One item written to standard output; numbers are kept as values, their decimal
rendering is not modelled. -/
inductive Item where
  | text (s : String)
  | nat (n : Nat)
  | int (z : Int)
  | float (b : Nat)
  | double (b : Nat)
  | longDouble (q : ℚ)
  deriving DecidableEq

/-- The items written by `Integers::IntegersExample`.  `short`, `int` and `long long`
have 2, 4 and 8 bytes; in `-3 == 0xFFFFFFFD` and in `(0 ^ 0xFFFFFFFF) + 1 == 0` the
hexadecimal literal has type `unsigned int`, so the `int` operands are converted to
`unsigned int` and the arithmetic is that of `unsigned int`. -/
def IntegersExample (t : Target) : List Item :=
  [Item.text "Integers Example\n----------------\n"]
  ++ (if intLiteral "231" = intLiteral "0347" ∧ intLiteral "231" = intLiteral "0xE7" then
        [Item.text "231 is 347 in octal or E7 in hexadecimal.\n"] else [])
  ++ (if intLiteral "231" = intLiteral "0b11100111" then
        [Item.text "231 is 11100111 in binary.\n"] else [])
  ++ [Item.text "sizeof(short): ", Item.nat 2, Item.text "\n",
      Item.text "sizeof(int): ", Item.nat 4, Item.text "\n",
      Item.text "sizeof(long): ", Item.nat t.longBytes, Item.text "\n",
      Item.text "sizeof(long long): ", Item.nat 8, Item.text "\n"]
  ++ (if toUnsigned 32 (-3) = 0xFFFFFFFD then
        [Item.text "This is how negative numbers look to a computer.\n"] else [])
  ++ (if add32 (xor32 (toUnsigned 32 0) 0xFFFFFFFF) (toUnsigned 32 1) = toUnsigned 32 0 then
        [Item.text "This is how two's complement avoids two representations of zero.\n"] else [])
  ++ [Item.text "Unsigned Short - Minimum: 0 Maximum: ", Item.nat USHRT_MAX, Item.text "\n",
      Item.text "Unsigned Int - Minimum: 0 Maximum: ", Item.nat UINT_MAX, Item.text "\n",
      Item.text "Unsigned Long - Minimum: 0 Maximum: ", Item.nat (ULONG_MAX t), Item.text "\n",
      Item.text "Unsigned Long Long - Minimum: 0 Maximum: ", Item.nat ULLONG_MAX, Item.text "\n",
      Item.text "Signed Short - Minimum: ", Item.int SHRT_MIN,
      Item.text " Maximum: ", Item.int SHRT_MAX, Item.text "\n",
      Item.text "Signed Int - Minimum: ", Item.int INT_MIN,
      Item.text " Maximum: ", Item.int INT_MAX, Item.text "\n",
      Item.text "Signed Long - Minimum: ", Item.int (LONG_MIN t),
      Item.text " Maximum: ", Item.int (LONG_MAX t), Item.text "\n",
      Item.text "Signed Long Long - Minimum: ", Item.int LLONG_MIN,
      Item.text " Maximum: ", Item.int LLONG_MAX, Item.text "\n"]

/-- The union of a 32-bit unsigned integer and a `float` sharing one storage. -/
structure FloatOrUInt32 where
  i : Nat

/-- The `float` member of the union: the very same 32 bits. -/
def FloatOrUInt32.f (u : FloatOrUInt32) : Nat :=
  u.i % 2 ^ 32

/-- A 3D vector of `float`s. -/
structure vec3 where
  x : Nat
  y : Nat
  z : Nat

/-- The dot product `lhs.x * rhs.x + lhs.y * rhs.y + lhs.z * rhs.z` in single precision. -/
def Vec3_DotProduct (lhs rhs : vec3) : Nat :=
  binary32.add (binary32.add (binary32.mul lhs.x rhs.x) (binary32.mul lhs.y rhs.y))
    (binary32.mul lhs.z rhs.z)

/-- The bit field `0|100_0010_0|010_1000_0000_0000_0000_0000`. -/
def fortytwo : FloatOrUInt32 := ⟨0x42280000⟩

/-- The bit field `1|100_0010_0|000_1011_0000_0000_0000_0000`. -/
def negativethirtyfourpointsevenfive : FloatOrUInt32 := ⟨0xC20B0000⟩

/-- The expansion of 0.1 cut off after 23 significand bits. -/
def slightlylessthanzeropointone : FloatOrUInt32 := ⟨0x3DCCCCCC⟩

/-- The expansion of 0.1 with the last significand bit rounded up. -/
def slightlygreaterthanzeropointone : FloatOrUInt32 := ⟨0x3DCCCCCD⟩

/-- The plane normal `{ 1.0f / sqrtf(3.0f), 1.0f / sqrtf(3.0f), 1.0f / sqrtf(3.0f) }`. -/
def normal : vec3 :=
  ⟨binary32.div (binary32.lit 1 1) (binary32.sqrt (binary32.lit 3 1)),
   binary32.div (binary32.lit 1 1) (binary32.sqrt (binary32.lit 3 1)),
   binary32.div (binary32.lit 1 1) (binary32.sqrt (binary32.lit 3 1))⟩

/-- The position `{ 0.78063f, 0.984654f, -1.765284f }`. -/
def position : vec3 :=
  ⟨binary32.lit 78063 100000, binary32.lit 984654 1000000,
   binary32.neg (binary32.lit 1765284 1000000)⟩

/-- The constants of `long double`, whose format depends on the target. -/
structure LongDoubleLimits where
  LDBL_MAX : ℚ
  LDBL_MIN : ℚ
  LDBL_TRUE_MIN : ℚ

/-- The items written by `FloatingPoint::FloatingPointExample`. -/
def FloatingPointExample (l : LongDoubleLimits) : List Item :=
  [Item.text "\nFloating Point\n--------------\n",
   Item.text "Forty two as a float is ", Item.float fortytwo.f, Item.text "\n",
   Item.text "Negative thirty four point seven five as a float is ",
   Item.float negativethirtyfourpointsevenfive.f, Item.text "\n",
   Item.text "Truncating rounding gives 0.1f = ",
   Item.float slightlylessthanzeropointone.f, Item.text "\n"]
  ++ (if binary32.eq (binary32.lit 1 10) slightlygreaterthanzeropointone.f then
        [Item.text "Rounding up gives 0.1f = ",
         Item.float slightlygreaterthanzeropointone.f, Item.text "\n"] else [])
  ++ (if binary32.eq (binary32.add (binary32.lit 1000000 1) (binary32.lit 1 100))
          (binary32.lit 1000000 1) then
        [Item.text "One million plus one one-hundredth is equal to one million.\n"] else [])
  ++ [Item.text "Single-precision float - Lowest: ", Item.float (binary32.neg FLT_MAX),
      Item.text " Maximum: ", Item.float FLT_MAX,
      Item.text " Smallest non-zero: ", Item.float FLT_MIN, Item.text "\n",
      Item.text "Double-precision float - Lowest: ", Item.double (binary64.neg DBL_MAX),
      Item.text " Maximum: ", Item.double DBL_MAX,
      Item.text " Smallest non-zero: ", Item.double DBL_MIN, Item.text "\n",
      Item.text "Extended-precision float - Lowest: ", Item.longDouble (-l.LDBL_MAX),
      Item.text " Maximum: ", Item.longDouble l.LDBL_MAX,
      Item.text " Smallest non-zero: ", Item.longDouble l.LDBL_MIN, Item.text "\n",
      Item.text "Single-precision float - Smallest denormal: ", Item.float FLT_TRUE_MIN,
      Item.text "\n",
      Item.text "Double-precision float - Smallest denormal: ", Item.double DBL_TRUE_MIN,
      Item.text "\n",
      Item.text "Extended-precision float - Smallest denormal: ",
      Item.longDouble l.LDBL_TRUE_MIN, Item.text "\n"]
  ++ (if binary32.eq (Vec3_DotProduct position normal) (binary32.lit 0 1) then
        [Item.text "This won't get printed because the floating point result is not exactly zero.\n"]
      else [])
  ++ (if binary32.le (Vec3_DotProduct position normal) FLT_EPSILON then
        [Item.text "This will get printed, because Vec3_DotProduct(position, normal) actually returns ",
         Item.float (Vec3_DotProduct position normal), Item.text "\n"] else [])
/-! ## Integers: helper lemmas -/

theorem xor_allOnes_eq (n x : Nat) (hx : x < 2 ^ n) : x ^^^ (2 ^ n - 1) = 2 ^ n - 1 - x := by
  have h1 : (~~~ (BitVec.ofNat n x)).toNat = 2 ^ n - 1 - x := by
    rw [BitVec.toNat_not, BitVec.toNat_ofNat, Nat.mod_eq_of_lt hx]
  rw [← h1, BitVec.not_def, BitVec.toNat_xor, BitVec.toNat_allOnes, BitVec.toNat_ofNat,
    Nat.mod_eq_of_lt hx, Nat.xor_comm]

theorem not32_eq (x : Nat) (hx : x < 2 ^ 32) : not32 x = 2 ^ 32 - 1 - x := by
  have h := xor_allOnes_eq 32 x hx
  have e : (0xFFFFFFFF : Nat) = 2 ^ 32 - 1 := by norm_num
  unfold not32 xor32
  rw [e, h]
  apply Nat.mod_eq_of_lt
  omega

theorem toSigned_bounds (n : Nat) (hn : 0 < n) (w : Nat) :
    -(2 : Int) ^ (n - 1) ≤ toSigned n w ∧ toSigned n w ≤ 2 ^ (n - 1) - 1 := by
  have hp : (2 : Int) ^ n = 2 * 2 ^ (n - 1) := by
    obtain ⟨k, rfl⟩ : ∃ k, n = k + 1 := ⟨n - 1, by omega⟩
    simp [pow_succ, mul_comm]
  have hlt : ((w % 2 ^ n : Nat) : Int) < 2 ^ n := by
    have := Nat.mod_lt w (Nat.two_pow_pos n)
    exact_mod_cast this
  have h0 : (0 : Int) ≤ ((w % 2 ^ n : Nat) : Int) := Int.ofNat_nonneg _
  have hpos : (0 : Int) < 2 ^ (n - 1) := by positivity
  unfold toSigned
  split
  · rename_i h
    have h' : ((w % 2 ^ n : Nat) : Int) < 2 ^ (n - 1) := by exact_mod_cast h
    constructor <;> omega
  · rename_i h
    have h' : (2 : Int) ^ (n - 1) ≤ ((w % 2 ^ n : Nat) : Int) := by
      have := Nat.le_of_not_lt h
      exact_mod_cast this
    constructor <;> omega

/-! ## Floating point: the value of a pattern -/

theorem FloatFormat.signBit_le_one (φ : FloatFormat) (b : Nat) :
    φ.signBit b = 0 ∨ φ.signBit b = 1 := by
  unfold FloatFormat.signBit
  omega

theorem FloatFormat.fracField_lt (φ : FloatFormat) (b : Nat) : φ.fracField b < 2 ^ φ.fbits :=
  Nat.mod_lt _ (Nat.two_pow_pos _)

theorem FloatFormat.expField_le (φ : FloatFormat) (b : Nat) : φ.expField b ≤ φ.expMax := by
  have := Nat.mod_lt (b / 2 ^ φ.fbits) (Nat.two_pow_pos φ.ebits)
  unfold FloatFormat.expField FloatFormat.expMax
  omega

/-- The value of a finite pattern is its signed magnitude times `2 ^ (-unitExp)`. -/
theorem FloatFormat.decode_eq_key (φ : FloatFormat) (hφ : 1 ≤ φ.bias) (b : Nat)
    (hb : φ.isFinite b = true) :
    φ.decode b = some ((φ.key b : ℚ) / 2 ^ φ.unitExp) := by
  have hlt : φ.expField b < φ.expMax := by simpa [FloatFormat.isFinite] using hb
  have hne : φ.expField b ≠ φ.expMax := Nat.ne_of_lt hlt
  have hu : (2 : ℚ) ^ φ.unitExp = 2 ^ (φ.bias - 1) * 2 ^ φ.fbits := by
    rw [FloatFormat.unitExp, pow_add]
  have hz1 : (2 : ℚ) ^ ((1 : ℤ) - (φ.bias : ℤ)) = 1 / 2 ^ (φ.bias - 1) := by
    have : (1 : ℤ) - (φ.bias : ℤ) = -((φ.bias - 1 : ℕ) : ℤ) := by omega
    rw [this, zpow_neg, zpow_natCast, one_div]
  have hp1 : (0 : ℚ) < 2 ^ (φ.bias - 1) := by positivity
  have hp2 : (0 : ℚ) < 2 ^ φ.fbits := by positivity
  unfold FloatFormat.decode
  rw [if_neg hne]
  by_cases he : φ.expField b = 0
  · rw [if_pos he]
    congr 1
    rw [hz1, hu]
    rcases φ.signBit_le_one b with hs | hs
    · simp only [FloatFormat.key, FloatFormat.mag, he, hs]
      push_cast
      simp only [if_true, if_false, one_ne_zero, zero_ne_one, pow_zero, pow_one]
      field_simp
      exact Or.inl (by ring1)
    · simp only [FloatFormat.key, FloatFormat.mag, he, hs]
      push_cast
      simp only [if_true, if_false, one_ne_zero, zero_ne_one, pow_zero, pow_one]
      field_simp
      exact Or.inl (by ring1)
  · rw [if_neg he]
    congr 1
    have hz2 : (2 : ℚ) ^ ((φ.expField b : ℤ) - (φ.bias : ℤ))
        = 2 ^ (φ.expField b - 1) / 2 ^ (φ.bias - 1) := by
      have : (φ.expField b : ℤ) - (φ.bias : ℤ)
          = ((φ.expField b - 1 : ℕ) : ℤ) - ((φ.bias - 1 : ℕ) : ℤ) := by omega
      rw [this, zpow_sub₀ (by norm_num : (2 : ℚ) ≠ 0), zpow_natCast, zpow_natCast]
    rw [hz2, hu]
    rcases φ.signBit_le_one b with hs | hs
    · simp only [FloatFormat.key, FloatFormat.mag, he, hs]
      push_cast
      simp only [if_true, if_false, one_ne_zero, zero_ne_one, pow_zero, pow_one]
      field_simp
      ring
    · simp only [FloatFormat.key, FloatFormat.mag, he, hs]
      push_cast
      simp only [if_true, if_false, one_ne_zero, zero_ne_one, pow_zero, pow_one]
      field_simp
      ring

/-! ## Floating point: rounding to nearest -/

namespace FloatFormat

theorem bitLen_zero (fuel : Nat) : bitLen fuel 0 = 0 := by
  cases fuel <;> simp [bitLen]

theorem bitLen_spec (fuel n : Nat) (h : n ≤ fuel) :
    n < 2 ^ bitLen fuel n ∧ (n ≠ 0 → 2 ^ (bitLen fuel n - 1) ≤ n) := by
  induction fuel generalizing n with
  | zero =>
    have : n = 0 := by omega
    subst this
    simp [bitLen]
  | succ fuel ih =>
    by_cases hn : n = 0
    · subst hn
      simp [bitLen]
    · have h2 : n / 2 ≤ fuel := by omega
      obtain ⟨ih1, ih2⟩ := ih (n / 2) h2
      have hb : bitLen (fuel + 1) n = bitLen fuel (n / 2) + 1 := by
        simp [bitLen, hn]
      rw [hb]
      refine ⟨?_, fun _ => ?_⟩
      · rw [pow_succ]
        omega
      · rw [Nat.add_sub_cancel]
        by_cases hz : n / 2 = 0
        · rw [hz, bitLen_zero]
          simp
          omega
        · have h3 := ih2 hz
          have h4 : bitLen fuel (n / 2) ≠ 0 := by
            intro h0
            rw [h0] at ih1
            simp at ih1
            exact hz ih1
          obtain ⟨k, hk⟩ : ∃ k, bitLen fuel (n / 2) = k + 1 := ⟨_, (Nat.succ_pred_eq_of_ne_zero h4).symm⟩
          rw [hk] at h3 ⊢
          rw [Nat.add_sub_cancel] at h3
          rw [pow_succ]
          omega

/-- No magnitude lies strictly between two neighbouring multiples `m * 2 ^ s` and
`(m + 1) * 2 ^ s` of the spacing, when `m` has the full significand width. -/
theorem mag_gap (φ : FloatFormat) (b s m : Nat) (hm : s = 0 ∨ 2 ^ φ.fbits ≤ m) :
    φ.mag b ≤ m * 2 ^ s ∨ (m + 1) * 2 ^ s ≤ φ.mag b := by
  rcases Nat.eq_zero_or_pos s with hs | hs
  · subst hs
    simp
    omega
  · have hm' : 2 ^ φ.fbits ≤ m := by
      rcases hm with h | h
      · omega
      · exact h
    by_contra hcon
    push_neg at hcon
    obtain ⟨h1, h2⟩ := hcon
    have hF := φ.fracField_lt b
    have hs1 : 1 ≤ 2 ^ s := Nat.one_le_two_pow
    have hms : m ≤ m * 2 ^ s := Nat.le_mul_of_pos_right m (Nat.two_pow_pos s)
    unfold mag at h1 h2
    by_cases he : φ.expField b = 0
    · rw [if_pos he] at h1
      omega
    · rw [if_neg he] at h1 h2
      by_cases hes : φ.expField b - 1 < s
      · have h3 : 2 ^ (φ.expField b - 1) * 2 ≤ 2 ^ s := by
          rw [← pow_succ]
          exact Nat.pow_le_pow_right (by norm_num) (by omega)
        have h4 : (2 ^ φ.fbits + φ.fracField b) * 2 ^ (φ.expField b - 1)
            ≤ (2 ^ φ.fbits * 2) * 2 ^ (φ.expField b - 1) :=
          Nat.mul_le_mul_right _ (by omega)
        have h5 : (2 ^ φ.fbits * 2) * 2 ^ (φ.expField b - 1) ≤ 2 ^ φ.fbits * 2 ^ s := by
          rw [Nat.mul_assoc, Nat.mul_comm 2]
          exact Nat.mul_le_mul_left _ h3
        have h6 : 2 ^ φ.fbits * 2 ^ s ≤ m * 2 ^ s := Nat.mul_le_mul_right _ hm'
        omega
      · obtain ⟨j, hj⟩ : ∃ j, φ.expField b - 1 = s + j := ⟨φ.expField b - 1 - s, by omega⟩
        rw [hj, pow_add] at h1 h2
        have e : (2 ^ φ.fbits + φ.fracField b) * (2 ^ s * 2 ^ j)
            = ((2 ^ φ.fbits + φ.fracField b) * 2 ^ j) * 2 ^ s := by ring
        rw [e] at h1 h2
        have h7 := Nat.lt_of_mul_lt_mul_right h1
        have h8 := Nat.lt_of_mul_lt_mul_right h2
        omega

end FloatFormat

namespace FloatFormat

/-- The pattern `s * 2 ^ fbits + m` has magnitude `m * 2 ^ s`, also when the significand
`m` has been rounded up to `2 ^ (fbits + 1)` and carries into the exponent field. -/
theorem mag_encode (φ : FloatFormat) (s m : Nat) (hm : m ≤ 2 ^ (φ.fbits + 1))
    (hs : s = 0 ∨ 2 ^ φ.fbits ≤ m) (hfin : s * 2 ^ φ.fbits + m < φ.inf) :
    φ.mag (s * 2 ^ φ.fbits + m) = m * 2 ^ s ∧
      φ.expField (s * 2 ^ φ.fbits + m) < φ.expMax ∧ φ.signBit (s * 2 ^ φ.fbits + m) = 0 := by
  have hP : 0 < 2 ^ φ.fbits := Nat.two_pow_pos _
  have hE : 0 < 2 ^ φ.ebits := Nat.two_pow_pos _
  have hm2 : m ≤ 2 ^ φ.fbits * 2 := by rw [← pow_succ]; exact hm
  unfold inf at hfin
  have hdiv : (s * 2 ^ φ.fbits + m) / 2 ^ φ.fbits < φ.expMax :=
    Nat.div_lt_of_lt_mul (by rw [Nat.mul_comm (2 ^ φ.fbits) φ.expMax]; exact hfin)
  have hEM : φ.expMax < 2 ^ φ.ebits := by unfold expMax; omega
  have hq : (s * 2 ^ φ.fbits + m) / 2 ^ φ.fbits = s + m / 2 ^ φ.fbits := by
    rw [Nat.add_comm, Nat.add_mul_div_right _ _ hP, Nat.add_comm]
  have hr : (s * 2 ^ φ.fbits + m) % 2 ^ φ.fbits = m % 2 ^ φ.fbits := by
    rw [Nat.add_comm, Nat.add_mul_mod_self_right]
  have hexp : φ.expField (s * 2 ^ φ.fbits + m) = s + m / 2 ^ φ.fbits := by
    unfold expField
    rw [hq] at hdiv ⊢
    exact Nat.mod_eq_of_lt (by omega)
  have hsign : φ.signBit (s * 2 ^ φ.fbits + m) = 0 := by
    unfold signBit
    have hlt : s * 2 ^ φ.fbits + m < 2 ^ (φ.ebits + φ.fbits) := by
      rw [pow_add]
      calc s * 2 ^ φ.fbits + m < φ.expMax * 2 ^ φ.fbits := hfin
        _ ≤ 2 ^ φ.ebits * 2 ^ φ.fbits := Nat.mul_le_mul_right _ (Nat.le_of_lt hEM)
    rw [Nat.div_eq_of_lt hlt]
  refine ⟨?_, ?_, hsign⟩
  · unfold mag
    unfold fracField
    rw [hexp, hr]
    by_cases h1 : m < 2 ^ φ.fbits
    · have hs0 : s = 0 := by
        rcases hs with h | h
        · exact h
        · omega
      subst hs0
      rw [Nat.div_eq_of_lt h1, Nat.mod_eq_of_lt h1]
      simp
    · by_cases h2 : m < 2 ^ φ.fbits * 2
      · have hd1 : m / 2 ^ φ.fbits = 1 := by
          apply Nat.div_eq_of_lt_le
          · omega
          · omega
        have hm1 : m % 2 ^ φ.fbits = m - 2 ^ φ.fbits := by
          have := Nat.div_add_mod m (2 ^ φ.fbits)
          rw [hd1] at this
          omega
        rw [hd1, hm1]
        have : s + 1 ≠ 0 := by omega
        rw [if_neg this, Nat.add_sub_cancel]
        congr 1
        omega
      · have hm3 : m = 2 ^ φ.fbits * 2 := by omega
        have hd1 : m / 2 ^ φ.fbits = 2 := by
          rw [hm3]
          exact Nat.mul_div_cancel_left 2 hP
        have hm1 : m % 2 ^ φ.fbits = 0 := by
          rw [hm3]
          exact Nat.mul_mod_right _ _
        rw [hd1, hm1]
        have : s + 2 ≠ 0 := by omega
        rw [if_neg this, hm3]
        have : s + 2 - 1 = s + 1 := by omega
        rw [this, pow_succ]
        ring
  · rw [hexp]
    rw [hq] at hdiv
    exact hdiv

end FloatFormat

namespace FloatFormat

/-- The quotient `m` computed by `roundMag` has at most `fbits + 1` bits, and exactly that
many when the spacing exponent `s` is positive. -/
theorem roundMag_quotient (φ : FloatFormat) (N d : Nat) :
    N / (d * 2 ^ (bitLen (N / d) (N / d) - (φ.fbits + 1))) < 2 ^ (φ.fbits + 1) ∧
    (bitLen (N / d) (N / d) - (φ.fbits + 1) = 0 ∨
      2 ^ φ.fbits ≤ N / (d * 2 ^ (bitLen (N / d) (N / d) - (φ.fbits + 1)))) := by
  obtain ⟨h1, h2⟩ := bitLen_spec (N / d) (N / d) (Nat.le_refl _)
  have hz : N / d = 0 → bitLen (N / d) (N / d) = 0 := fun h => by rw [h, bitLen_zero]
  generalize bitLen (N / d) (N / d) = L at h1 h2 hz
  rw [← Nat.div_div_eq_div_mul]
  generalize N / d = t at h1 h2 hz
  constructor
  · apply Nat.div_lt_of_lt_mul
    rw [← pow_add]
    exact Nat.lt_of_lt_of_le h1 (Nat.pow_le_pow_right (by norm_num) (by omega))
  · by_cases hs : L - (φ.fbits + 1) = 0
    · exact Or.inl hs
    · right
      have ht : t ≠ 0 := by
        intro h0
        have := hz h0
        omega
      have h3 := h2 ht
      rw [Nat.le_div_iff_mul_le (Nat.two_pow_pos _), ← pow_add]
      exact Nat.le_trans (Nat.pow_le_pow_right (by norm_num) (by omega)) h3

/-- In whole multiples of the unit, `roundMag` returns a finite positive pattern whose
magnitude is at least as close to `n / d` as the magnitude of any other pattern. -/
theorem roundMag_nearest (φ : FloatFormat) (n d : Nat) (hd : 0 < d)
    (hfin : φ.roundMag n d < φ.inf) (b : Nat) :
    |(φ.mag (φ.roundMag n d) : ℤ) * d - n * 2 ^ φ.unitExp|
        ≤ |(φ.mag b : ℤ) * d - n * 2 ^ φ.unitExp| ∧
      φ.expField (φ.roundMag n d) < φ.expMax ∧ φ.signBit (φ.roundMag n d) = 0 := by
  obtain ⟨hq1, hq2⟩ := roundMag_quotient φ (n * 2 ^ φ.unitExp) d
  have hcast : ((n : ℤ) * 2 ^ φ.unitExp) = ((n * 2 ^ φ.unitExp : ℕ) : ℤ) := by push_cast; rfl
  rw [hcast]
  unfold roundMag at hfin ⊢
  simp only at hfin ⊢
  generalize n * 2 ^ φ.unitExp = N at hq1 hq2 hfin ⊢
  generalize bitLen (N / d) (N / d) - (φ.fbits + 1) = s at hq1 hq2 hfin ⊢
  have hD : 0 < d * 2 ^ s := Nat.mul_pos hd (Nat.two_pow_pos s)
  have hdm := Nat.div_add_mod N (d * 2 ^ s)
  have hrl := Nat.mod_lt N hD
  generalize N / (d * 2 ^ s) = m at hq1 hq2 hfin hdm ⊢
  generalize N % (d * 2 ^ s) = r at hfin hdm hrl ⊢
  have hN : (N : ℤ) = (d : ℤ) * 2 ^ s * m + r := by
    rw [← hdm]
    push_cast
    ring
  have hr0 : (0 : ℤ) ≤ r := Int.ofNat_nonneg r
  have hrl' : (r : ℤ) < (d : ℤ) * 2 ^ s := by exact_mod_cast hrl
  have hgap : (φ.mag b : ℤ) * d ≤ (d : ℤ) * 2 ^ s * m ∨
      (d : ℤ) * 2 ^ s * m + (d : ℤ) * 2 ^ s ≤ (φ.mag b : ℤ) * d := by
    rcases mag_gap φ b s m hq2 with h | h
    · left
      have := Nat.mul_le_mul_right d h
      have h' : ((φ.mag b * d : ℕ) : ℤ) ≤ ((m * 2 ^ s * d : ℕ) : ℤ) := by exact_mod_cast this
      push_cast at h'
      linarith
    · right
      have := Nat.mul_le_mul_right d h
      have h' : (((m + 1) * 2 ^ s * d : ℕ) : ℤ) ≤ ((φ.mag b * d : ℕ) : ℤ) := by
        exact_mod_cast this
      push_cast at h'
      linarith
  by_cases hc : d * 2 ^ s < 2 * r ∨ 2 * r = d * 2 ^ s ∧ m % 2 = 1
  · rw [if_pos hc] at hfin ⊢
    have hb : s * 2 ^ φ.fbits + (m + 1) < φ.inf := by
      by_contra h
      rw [if_pos (Nat.le_of_not_lt h)] at hfin
      exact Nat.lt_irrefl _ hfin
    rw [if_neg (Nat.not_le_of_lt hb)]
    obtain ⟨e1, e2, e3⟩ := mag_encode φ s (m + 1) (by omega) (by omega) hb
    refine ⟨?_, e2, e3⟩
    have hval : (((m + 1) * 2 ^ s : ℕ) : ℤ) * d = (d : ℤ) * 2 ^ s * m + (d : ℤ) * 2 ^ s := by
      push_cast
      ring
    rw [e1, hval]
    have hc' : (d : ℤ) * 2 ^ s ≤ 2 * r := by
      have : d * 2 ^ s ≤ 2 * r := by omega
      exact_mod_cast this
    generalize (d : ℤ) * 2 ^ s * m = P at hN hgap ⊢
    generalize (d : ℤ) * 2 ^ s = Q at hrl' hgap hc' ⊢
    generalize (φ.mag b : ℤ) * d = X at hgap ⊢
    rcases hgap with h | h
    · rw [abs_sub_comm X N, abs_of_nonneg (by linarith : (0 : ℤ) ≤ N - X)]
      apply abs_le.mpr
      constructor <;> linarith
    · rw [abs_of_nonneg (by linarith : (0 : ℤ) ≤ X - N)]
      apply abs_le.mpr
      constructor <;> linarith
  · rw [if_neg hc] at hfin ⊢
    have hb : s * 2 ^ φ.fbits + m < φ.inf := by
      by_contra h
      rw [if_pos (Nat.le_of_not_lt h)] at hfin
      exact Nat.lt_irrefl _ hfin
    rw [if_neg (Nat.not_le_of_lt hb)]
    obtain ⟨e1, e2, e3⟩ := mag_encode φ s m (by omega) hq2 hb
    refine ⟨?_, e2, e3⟩
    have hval : ((m * 2 ^ s : ℕ) : ℤ) * d = (d : ℤ) * 2 ^ s * m := by
      push_cast
      ring
    rw [e1, hval]
    have hc' : 2 * (r : ℤ) ≤ (d : ℤ) * 2 ^ s := by
      have : 2 * r ≤ d * 2 ^ s := by omega
      exact_mod_cast this
    generalize (d : ℤ) * 2 ^ s * m = P at hN hgap ⊢
    generalize (d : ℤ) * 2 ^ s = Q at hrl' hgap hc' ⊢
    generalize (φ.mag b : ℤ) * d = X at hgap ⊢
    rcases hgap with h | h
    · rw [abs_sub_comm X N, abs_of_nonneg (by linarith : (0 : ℤ) ≤ N - X)]
      apply abs_le.mpr
      constructor <;> linarith
    · rw [abs_of_nonneg (by linarith : (0 : ℤ) ≤ X - N)]
      apply abs_le.mpr
      constructor <;> linarith

end FloatFormat

namespace FloatFormat

theorem inf_lt_signMask (φ : FloatFormat) : φ.inf < φ.signMask := by
  unfold inf signMask expMax
  rw [pow_add]
  have h1 : 0 < 2 ^ φ.ebits := Nat.two_pow_pos _
  have h2 : 0 < 2 ^ φ.fbits := Nat.two_pow_pos _
  exact Nat.mul_lt_mul_of_pos_right (by omega) h2

/-- Setting the sign bit of a positive pattern negates its signed magnitude. -/
theorem key_signMask_add (φ : FloatFormat) (r : Nat) (hr : r < φ.signMask) :
    φ.expField (φ.signMask + r) = φ.expField r ∧ φ.key (φ.signMask + r) = -(φ.mag r : ℤ) := by
  have hP : 0 < 2 ^ φ.fbits := Nat.two_pow_pos _
  have he : φ.expField (φ.signMask + r) = φ.expField r := by
    unfold expField signMask
    rw [pow_add, Nat.add_comm, Nat.add_mul_div_right _ _ hP, Nat.add_mod_right]
  have hf : φ.fracField (φ.signMask + r) = φ.fracField r := by
    unfold fracField signMask
    rw [pow_add, Nat.add_comm, Nat.add_mul_mod_self_right]
  have hs : φ.signBit (φ.signMask + r) = 1 := by
    unfold signBit
    unfold signMask at hr ⊢
    rw [Nat.add_div_left _ (Nat.two_pow_pos _), Nat.div_eq_of_lt hr]
  refine ⟨he, ?_⟩
  unfold key mag
  rw [hs, he, hf]
  simp

theorem key_of_signBit_zero (φ : FloatFormat) (r : Nat) (hr : φ.signBit r = 0) :
    φ.key r = (φ.mag r : ℤ) := by
  unfold key
  rw [hr]
  simp

theorem key_eq_or_neg (φ : FloatFormat) (b : Nat) :
    φ.key b = (φ.mag b : ℤ) ∨ φ.key b = -(φ.mag b : ℤ) := by
  unfold key
  split
  · exact Or.inr rfl
  · exact Or.inl rfl

theorem isFinite_of_decode (φ : FloatFormat) (b : Nat) (w : ℚ) (h : φ.decode b = some w) :
    φ.isFinite b = true := by
  unfold decode at h
  by_cases he : φ.expField b = φ.expMax
  · rw [if_pos he] at h
    exact absurd h (by simp)
  · have := φ.expField_le b
    simp only [isFinite, decide_eq_true_eq]
    omega

/-- The distance between `k * 2 ^ (-u)` and `z / d`, over a common denominator. -/
theorem dist_unit (k z : ℤ) (d u : Nat) (hd : 0 < d) :
    |(k : ℚ) / 2 ^ u - (z : ℚ) / d| = (|k * d - z * 2 ^ u| : ℤ) / (2 ^ u * d : ℚ) := by
  have hd' : (0 : ℚ) < d := by exact_mod_cast hd
  have hu : (0 : ℚ) < 2 ^ u := by positivity
  have hpos : (0 : ℚ) < 2 ^ u * d := by positivity
  have e : (k : ℚ) / 2 ^ u - (z : ℚ) / d = ((k * d - z * 2 ^ u : ℤ) : ℚ) / (2 ^ u * d) := by
    push_cast
    field_simp
    ring
  rw [e, abs_div, abs_of_pos hpos]
  push_cast
  rfl

/-- A signed magnitude is no closer to a target of either sign than the magnitude is to
the non-negative target. -/
theorem abs_mag_sub_le (x N k : ℤ) (hx : 0 ≤ x) (hN : 0 ≤ N) (hk : k = x ∨ k = -x) :
    |x - N| ≤ |k - N| ∧ |x - N| ≤ |k + N| := by
  have hsum : |x - N| ≤ |x + N| := by
    rw [abs_of_nonneg (by linarith : (0 : ℤ) ≤ x + N)]
    exact abs_le.mpr ⟨by linarith, by linarith⟩
  rcases hk with h | h
  · rw [h]
    exact ⟨le_refl _, hsum⟩
  · rw [h]
    constructor
    · have e : -x - N = -(x + N) := by ring
      rw [e, abs_neg]
      exact hsum
    · have e : -x + N = -(x - N) := by ring
      rw [e, abs_neg]

/-- Rounding is to nearest: the value of `round neg n d` is at least as close to the exact
rational `± n / d` as the value of any other pattern, unless the result overflows. -/
theorem round_nearest (φ : FloatFormat) (hφ : 1 ≤ φ.bias) (neg : Bool) (n d : Nat)
    (hd : 0 < d) (hfin : φ.roundMag n d < φ.inf) :
    ∃ v, φ.decode (φ.round neg n d) = some v ∧
      ∀ b w, φ.decode b = some w →
        |v - (if neg then -((n : ℚ) / d) else (n : ℚ) / d)|
          ≤ |w - (if neg then -((n : ℚ) / d) else (n : ℚ) / d)| := by
  have hpos : (0 : ℚ) < 2 ^ φ.unitExp * d := by
    have hd' : (0 : ℚ) < d := by exact_mod_cast hd
    positivity
  obtain ⟨_, hexp, hsign⟩ := roundMag_nearest φ n d hd hfin 0
  have hN0 : (0 : ℤ) ≤ (n : ℤ) * 2 ^ φ.unitExp := by positivity
  have hlt : φ.roundMag n d < φ.signMask := Nat.lt_trans hfin φ.inf_lt_signMask
  have hfinite : φ.isFinite (φ.round neg n d) = true := by
    simp only [isFinite, decide_eq_true_eq, round]
    cases neg
    · simpa using hexp
    · simpa [(key_signMask_add φ _ hlt).1] using hexp
  refine ⟨_, decode_eq_key φ hφ _ hfinite, ?_⟩
  intro b w hw
  have hbf := isFinite_of_decode φ b w hw
  rw [decode_eq_key φ hφ b hbf] at hw
  have hw' : w = (φ.key b : ℚ) / 2 ^ φ.unitExp := (Option.some.inj hw).symm
  subst hw'
  have h1 := (roundMag_nearest φ n d hd hfin b).1
  have h2 := abs_mag_sub_le ((φ.mag b : ℤ) * d) (n * 2 ^ φ.unitExp) (φ.key b * d)
    (by positivity) hN0 (by
      rcases key_eq_or_neg φ b with h | h
      · exact Or.inl (by rw [h])
      · exact Or.inr (by rw [h]; ring))
  cases neg
  · have hkey : φ.key (φ.round false n d) = (φ.mag (φ.roundMag n d) : ℤ) := by
      simp only [round, Bool.false_eq_true, if_false, Nat.zero_add]
      exact key_of_signBit_zero φ _ hsign
    simp only [Bool.false_eq_true, if_false]
    have e1 := dist_unit (φ.key (φ.round false n d)) n d φ.unitExp hd
    have e2 := dist_unit (φ.key b) n d φ.unitExp hd
    simp only [Int.cast_natCast] at e1 e2
    rw [e1, e2]
    apply div_le_div_of_nonneg_right _ (le_of_lt hpos)
    rw [hkey]
    exact_mod_cast le_trans h1 h2.1
  · have hkey : φ.key (φ.round true n d) = -(φ.mag (φ.roundMag n d) : ℤ) := by
      simp only [round, if_true]
      exact (key_signMask_add φ _ hlt).2
    simp only [if_true]
    have e1 := dist_unit (φ.key (φ.round true n d)) (-(n : ℤ)) d φ.unitExp hd
    have e2 := dist_unit (φ.key b) (-(n : ℤ)) d φ.unitExp hd
    simp only [Int.cast_neg, Int.cast_natCast, neg_div] at e1 e2
    rw [e1, e2]
    apply div_le_div_of_nonneg_right _ (le_of_lt hpos)
    rw [hkey]
    have e3 : |(-(φ.mag (φ.roundMag n d) : ℤ)) * d - -(n : ℤ) * 2 ^ φ.unitExp|
        = |(φ.mag (φ.roundMag n d) : ℤ) * d - n * 2 ^ φ.unitExp| := by
      rw [← abs_neg]
      congr 1
      ring
    have e4 : φ.key b * d - -(n : ℤ) * 2 ^ φ.unitExp = φ.key b * d + n * 2 ^ φ.unitExp := by
      ring
    rw [e3, e4]
    exact_mod_cast le_trans h1 h2.2

end FloatFormat

namespace FloatFormat

theorem isNaN_of_isFinite (φ : FloatFormat) (b : Nat) (h : φ.isFinite b = true) :
    φ.isNaN b = false := by
  simp only [isFinite, decide_eq_true_eq] at h
  simp only [isNaN, decide_eq_false_iff_not]
  omega

theorem decode_value (φ : FloatFormat) (hφ : 1 ≤ φ.bias) (b : Nat) (w : ℚ)
    (h : φ.decode b = some w) : w = (φ.key b : ℚ) / 2 ^ φ.unitExp := by
  rw [decode_eq_key φ hφ b (isFinite_of_decode φ b w h)] at h
  exact (Option.some.inj h).symm

/-- A decimal literal denotes the pattern nearest to its exact value. -/
theorem lit_nearest (φ : FloatFormat) (hφ : 1 ≤ φ.bias) (n d : Nat) (hd : 0 < d)
    (hfin : φ.roundMag n d < φ.inf) :
    ∃ v, φ.decode (φ.lit n d) = some v ∧
      ∀ c w, φ.decode c = some w → |v - (n : ℚ) / d| ≤ |w - (n : ℚ) / d| := by
  simpa [lit] using round_nearest φ hφ false n d hd hfin

/-- The operator `*` returns the pattern nearest to the exact product of the values of
its operands, unless the product overflows. -/
theorem mul_nearest (φ : FloatFormat) (hφ : 1 ≤ φ.bias) (a b : Nat) (va vb : ℚ)
    (ha : φ.decode a = some va) (hb : φ.decode b = some vb)
    (hfin : φ.roundMag (φ.mag a * φ.mag b) (2 ^ (2 * φ.unitExp)) < φ.inf) :
    ∃ v, φ.decode (φ.mul a b) = some v ∧
      ∀ c w, φ.decode c = some w → |v - va * vb| ≤ |w - va * vb| := by
  have fa := isFinite_of_decode φ a va ha
  have fb := isFinite_of_decode φ b vb hb
  have ea := decode_value φ hφ a va ha
  have eb := decode_value φ hφ b vb hb
  obtain ⟨v, hv, hnear⟩ := round_nearest φ hφ
    (decide ((φ.signBit a + φ.signBit b) % 2 = 1)) (φ.mag a * φ.mag b)
    (2 ^ (2 * φ.unitExp)) (Nat.two_pow_pos _) hfin
  refine ⟨v, ?_, ?_⟩
  · simp only [mul, isNaN_of_isFinite φ a fa, isNaN_of_isFinite φ b fb, fa, fb,
      Bool.or_self, Bool.and_self, Bool.false_eq_true, if_false, if_true]
    exact hv
  · have hu : (0 : ℚ) < 2 ^ φ.unitExp := by positivity
    have hq : (if decide ((φ.signBit a + φ.signBit b) % 2 = 1) = true then
          -(((φ.mag a * φ.mag b : ℕ) : ℚ) / ((2 ^ (2 * φ.unitExp) : ℕ) : ℚ))
        else ((φ.mag a * φ.mag b : ℕ) : ℚ) / ((2 ^ (2 * φ.unitExp) : ℕ) : ℚ)) = va * vb := by
      rw [ea, eb]
      have h2 : (((2 : ℕ) ^ (2 * φ.unitExp) : ℕ) : ℚ) = 2 ^ φ.unitExp * 2 ^ φ.unitExp := by
        push_cast
        ring
      rw [h2]
      rcases φ.signBit_le_one a with sa | sa <;> rcases φ.signBit_le_one b with sb | sb <;>
        simp only [key, sa, sb] <;> norm_num <;> field_simp
    rw [hq] at hnear
    exact hnear

end FloatFormat

namespace FloatFormat

theorem expMax_pos (φ : FloatFormat) (hφ : 1 ≤ φ.bias) : 0 < φ.expMax := by
  unfold bias at hφ
  unfold expMax
  have h1 : 2 ^ (φ.ebits - 1) ≤ 2 ^ φ.ebits := Nat.pow_le_pow_right (by norm_num) (by omega)
  omega

theorem mag_zero (φ : FloatFormat) : φ.mag 0 = 0 := by
  simp [mag, expField, fracField]

/-- Both zeros are finite and have the value 0. -/
theorem decode_zero (φ : FloatFormat) (hφ : 1 ≤ φ.bias) :
    φ.decode 0 = some 0 ∧ φ.decode φ.signMask = some 0 := by
  have hpos := expMax_pos φ hφ
  have h0 : φ.expField 0 = 0 := by simp [expField]
  have hs0 : φ.signBit 0 = 0 := by simp [signBit]
  have hk := key_signMask_add φ 0 (Nat.two_pow_pos _)
  rw [Nat.add_zero] at hk
  constructor
  · rw [decode_eq_key φ hφ 0 (by simp [isFinite, h0, hpos]), key_of_signBit_zero φ 0 hs0,
      mag_zero]
    simp
  · rw [decode_eq_key φ hφ _ (by simp [isFinite, hk.1, h0, hpos]), hk.2, mag_zero]
    simp

/-- The operator `+` returns the pattern nearest to the exact sum of the values of its
operands, unless the sum overflows. -/
theorem add_nearest (φ : FloatFormat) (hφ : 1 ≤ φ.bias) (a b : Nat) (va vb : ℚ)
    (ha : φ.decode a = some va) (hb : φ.decode b = some vb)
    (hfin : φ.roundMag (φ.key a + φ.key b).natAbs (2 ^ φ.unitExp) < φ.inf) :
    ∃ v, φ.decode (φ.add a b) = some v ∧
      ∀ c w, φ.decode c = some w → |v - (va + vb)| ≤ |w - (va + vb)| := by
  have fa := isFinite_of_decode φ a va ha
  have fb := isFinite_of_decode φ b vb hb
  have ea := decode_value φ hφ a va ha
  have eb := decode_value φ hφ b vb hb
  have hsum : va + vb = ((φ.key a + φ.key b : ℤ) : ℚ) / 2 ^ φ.unitExp := by
    rw [ea, eb]
    push_cast
    ring
  have hadd : φ.add a b = if φ.key a + φ.key b = 0 then
        (if φ.signBit a = 1 ∧ φ.signBit b = 1 then φ.signMask else 0)
      else φ.round (decide (φ.key a + φ.key b < 0)) (φ.key a + φ.key b).natAbs
        (2 ^ φ.unitExp) := by
    simp only [add, isNaN_of_isFinite φ a fa, isNaN_of_isFinite φ b fb, fa, fb,
      Bool.or_self, Bool.and_self, Bool.false_eq_true, if_false, if_true]
  rw [hadd, hsum]
  generalize φ.key a + φ.key b = z at hfin ⊢
  by_cases hz : z = 0
  · rw [if_pos hz, hz]
    refine ⟨0, ?_, ?_⟩
    · split
      · exact (decode_zero φ hφ).2
      · exact (decode_zero φ hφ).1
    · intro c w _
      simp
  · rw [if_neg hz]
    obtain ⟨v, hv, hnear⟩ := round_nearest φ hφ (decide (z < 0)) z.natAbs
      (2 ^ φ.unitExp) (Nat.two_pow_pos _) hfin
    refine ⟨v, hv, ?_⟩
    have hq : (if decide (z < 0) = true then
          -((z.natAbs : ℚ) / ((2 ^ φ.unitExp : ℕ) : ℚ))
        else (z.natAbs : ℚ) / ((2 ^ φ.unitExp : ℕ) : ℚ)) = (z : ℚ) / 2 ^ φ.unitExp := by
      have hcast : ((z.natAbs : ℕ) : ℚ) = ((|z| : ℤ) : ℚ) := Nat.cast_natAbs z
      rw [hcast]
      by_cases hneg : z < 0
      · simp only [hneg, decide_True, if_true, abs_of_neg hneg]
        push_cast
        ring
      · simp only [hneg, decide_False, Bool.false_eq_true, if_false,
          abs_of_nonneg (not_lt.mp hneg)]
        push_cast
        ring
    rw [hq] at hnear
    exact hnear

/-- The operator `/` returns the pattern nearest to the exact quotient of the values of
its operands, unless the quotient overflows. -/
theorem div_nearest (φ : FloatFormat) (hφ : 1 ≤ φ.bias) (a b : Nat) (va vb : ℚ)
    (ha : φ.decode a = some va) (hb : φ.decode b = some vb) (hvb : vb ≠ 0)
    (hfin : φ.roundMag (φ.mag a) (φ.mag b) < φ.inf) :
    ∃ v, φ.decode (φ.div a b) = some v ∧
      ∀ c w, φ.decode c = some w → |v - va / vb| ≤ |w - va / vb| := by
  have fa := isFinite_of_decode φ a va ha
  have fb := isFinite_of_decode φ b vb hb
  have ea := decode_value φ hφ a va ha
  have eb := decode_value φ hφ b vb hb
  have hu : (0 : ℚ) < 2 ^ φ.unitExp := by positivity
  have hmb : φ.mag b ≠ 0 := by
    intro h0
    apply hvb
    rw [eb]
    rcases key_eq_or_neg φ b with h | h <;> rw [h, h0] <;> simp
  obtain ⟨v, hv, hnear⟩ := round_nearest φ hφ
    (decide ((φ.signBit a + φ.signBit b) % 2 = 1)) (φ.mag a) (φ.mag b)
    (Nat.pos_of_ne_zero hmb) hfin
  refine ⟨v, ?_, ?_⟩
  · simp only [div, isNaN_of_isFinite φ a fa, isNaN_of_isFinite φ b fb, fa, fb,
      Bool.or_self, Bool.and_self, Bool.false_eq_true, if_false, if_true, hmb]
    exact hv
  · have hmb' : (φ.mag b : ℚ) ≠ 0 := by exact_mod_cast hmb
    have hq : (if decide ((φ.signBit a + φ.signBit b) % 2 = 1) = true then
          -((φ.mag a : ℚ) / (φ.mag b : ℚ))
        else (φ.mag a : ℚ) / (φ.mag b : ℚ)) = va / vb := by
      have hc : va / vb = (φ.key a : ℚ) / (φ.key b : ℚ) := by
        rw [ea, eb]
        field_simp
      rw [hc]
      rcases φ.signBit_le_one a with sa | sa <;> rcases φ.signBit_le_one b with sb | sb <;>
        simp only [key, sa, sb] <;> norm_num [neg_div, div_neg]
    rw [hq] at hnear
    exact hnear

end FloatFormat

/-! ## Floating point: the square root -/

namespace FloatFormat

theorem isqrtAux_spec (n k r : Nat) (h1 : r * r ≤ n) (h2 : n < (r + 2 ^ k) * (r + 2 ^ k)) :
    isqrtAux n k r * isqrtAux n k r ≤ n ∧ n < (isqrtAux n k r + 1) * (isqrtAux n k r + 1) := by
  induction k generalizing r with
  | zero => simpa [isqrtAux] using And.intro h1 h2
  | succ k ih =>
    unfold isqrtAux
    by_cases hc : (r + 2 ^ k) * (r + 2 ^ k) ≤ n
    · rw [if_pos hc]
      apply ih _ hc
      have e : r + 2 ^ k + 2 ^ k = r + 2 ^ (k + 1) := by rw [pow_succ]; omega
      rw [e]
      exact h2
    · rw [if_neg hc]
      exact ih _ h1 (Nat.lt_of_not_le hc)

/-- The integer square root brackets its argument between two consecutive squares. -/
theorem isqrt_spec (n : Nat) : isqrt n * isqrt n ≤ n ∧ n < (isqrt n + 1) * (isqrt n + 1) := by
  unfold isqrt
  apply isqrtAux_spec
  · simp
  · have h := (bitLen_spec n n (Nat.le_refl n)).1
    have h1 : 1 ≤ 2 ^ bitLen n n := Nat.one_le_two_pow
    calc n < 2 ^ bitLen n n := h
      _ = 2 ^ bitLen n n * 1 := (Nat.mul_one _).symm
      _ ≤ 2 ^ bitLen n n * 2 ^ bitLen n n := Nat.mul_le_mul_left _ h1
      _ = (0 + 2 ^ bitLen n n) * (0 + 2 ^ bitLen n n) := by rw [Nat.zero_add]

/-- Rounding the truncated root with a sticky bit instead of the root itself: when `σ`
lies strictly between `R` and `R + 1`, an even `V` that is nearest to `R + 1/2` among
the even numbers considered is also nearest to `σ`. -/
theorem sticky_transfer (R V W : ℤ) (σ : ℝ) (hlo : (R : ℝ) < σ) (hhi : σ < (R : ℝ) + 1)
    (hV : 2 ∣ V) (hW : 2 ∣ W) (h : |2 * V - (2 * R + 1)| ≤ |2 * W - (2 * R + 1)|) :
    |(V : ℝ) - σ| ≤ |(W : ℝ) - σ| := by
  obtain ⟨a, rfl⟩ := hV
  obtain ⟨b, rfl⟩ := hW
  rcases abs_cases (2 * (2 * a) - (2 * R + 1)) with ⟨e1, g1⟩ | ⟨e1, g1⟩ <;>
    rcases abs_cases (2 * (2 * b) - (2 * R + 1)) with ⟨e2, g2⟩ | ⟨e2, g2⟩ <;>
    rw [e1, e2] at h
  · have i1 : R + 1 ≤ 2 * a := by omega
    have i2 : 2 * a ≤ 2 * b := by omega
    have r1 : (R : ℝ) + 1 ≤ ((2 * a : ℤ) : ℝ) := by exact_mod_cast i1
    have r2 : ((2 * a : ℤ) : ℝ) ≤ ((2 * b : ℤ) : ℝ) := by exact_mod_cast i2
    calc |((2 * a : ℤ) : ℝ) - σ| ≤ ((2 * b : ℤ) : ℝ) - σ :=
          abs_le.mpr ⟨by linarith, by linarith⟩
      _ ≤ |((2 * b : ℤ) : ℝ) - σ| := le_abs_self _
  · have i1 : R + 1 ≤ 2 * a := by omega
    have i2 : 2 * a + 2 * b ≤ 2 * R := by omega
    have r1 : (R : ℝ) + 1 ≤ ((2 * a : ℤ) : ℝ) := by exact_mod_cast i1
    have r2 : ((2 * a : ℤ) : ℝ) + ((2 * b : ℤ) : ℝ) ≤ 2 * (R : ℝ) := by exact_mod_cast i2
    calc |((2 * a : ℤ) : ℝ) - σ| ≤ -(((2 * b : ℤ) : ℝ) - σ) :=
          abs_le.mpr ⟨by linarith, by linarith⟩
      _ ≤ |((2 * b : ℤ) : ℝ) - σ| := neg_le_abs _
  · have i1 : 2 * a ≤ R := by omega
    have i2 : 2 * R + 2 ≤ 2 * a + 2 * b := by omega
    have r1 : ((2 * a : ℤ) : ℝ) ≤ (R : ℝ) := by exact_mod_cast i1
    have r2 : 2 * (R : ℝ) + 2 ≤ ((2 * a : ℤ) : ℝ) + ((2 * b : ℤ) : ℝ) := by exact_mod_cast i2
    calc |((2 * a : ℤ) : ℝ) - σ| ≤ ((2 * b : ℤ) : ℝ) - σ :=
          abs_le.mpr ⟨by linarith, by linarith⟩
      _ ≤ |((2 * b : ℤ) : ℝ) - σ| := le_abs_self _
  · have i1 : 2 * a ≤ R := by omega
    have i2 : 2 * b ≤ 2 * a := by omega
    have r1 : ((2 * a : ℤ) : ℝ) ≤ (R : ℝ) := by exact_mod_cast i1
    have r2 : ((2 * b : ℤ) : ℝ) ≤ ((2 * a : ℤ) : ℝ) := by exact_mod_cast i2
    calc |((2 * a : ℤ) : ℝ) - σ| ≤ -(((2 * b : ℤ) : ℝ) - σ) :=
          abs_le.mpr ⟨by linarith, by linarith⟩
      _ ≤ |((2 * b : ℤ) : ℝ) - σ| := neg_le_abs _

end FloatFormat

namespace FloatFormat

/-- A positive value has a positive pattern: sign bit clear and magnitude non-zero. -/
theorem key_pos_of_decode_pos (φ : FloatFormat) (hφ : 1 ≤ φ.bias) (a : Nat) (va : ℚ)
    (ha : φ.decode a = some va) (hpos : 0 < va) :
    φ.signBit a ≠ 1 ∧ φ.mag a ≠ 0 ∧ va = (φ.mag a : ℚ) / 2 ^ φ.unitExp := by
  have ea := decode_value φ hφ a va ha
  have hu : (0 : ℚ) < 2 ^ φ.unitExp := by positivity
  have hk : (0 : ℚ) < (φ.key a : ℚ) := by
    rw [ea] at hpos
    exact (div_pos_iff_of_pos_right hu).mp hpos
  have hk' : (0 : ℤ) < φ.key a := by exact_mod_cast hk
  have hm := Int.ofNat_nonneg (φ.mag a)
  unfold key at hk' ea
  by_cases hs : φ.signBit a = 1
  · rw [if_pos hs] at hk'
    omega
  · rw [if_neg hs] at hk' ea
    refine ⟨hs, ?_, ?_⟩
    · intro h0
      rw [h0] at hk'
      simp at hk'
    · rw [ea]
      push_cast
      rfl

/-- Dividing a comparison of distances by the common scale. -/
theorem abs_scaled_le (V W : ℤ) (σ S : ℝ) (hS : 0 < S) (h : |(V : ℝ) - σ| ≤ |(W : ℝ) - σ|) :
    |(V : ℝ) / S - σ / S| ≤ |(W : ℝ) / S - σ / S| := by
  rw [← sub_div, ← sub_div, abs_div, abs_div, abs_of_pos hS]
  exact div_le_div_of_nonneg_right h (le_of_lt hS)

end FloatFormat

namespace FloatFormat

/-- The truncated root `R` with its sticky bit decides the rounding of the exact root:
an even `V` nearest to `R + sticky / 2` is nearest to the square root of `N`. -/
theorem sticky_root_nearest (N R : Nat) (V W : ℤ) (h1 : R * R ≤ N)
    (h2 : N < (R + 1) * (R + 1)) (hV : 2 ∣ V) (hW : 2 ∣ W)
    (h : |2 * V - ((2 * R + (if R * R = N then 0 else 1) : ℕ) : ℤ)|
      ≤ |2 * W - ((2 * R + (if R * R = N then 0 else 1) : ℕ) : ℤ)|) :
    |(V : ℝ) - √(N : ℝ)| ≤ |(W : ℝ) - √(N : ℝ)| := by
  have hN0 : (0 : ℝ) ≤ (N : ℝ) := Nat.cast_nonneg N
  have hR0 : (0 : ℝ) ≤ (R : ℝ) := Nat.cast_nonneg R
  by_cases he : R * R = N
  · rw [if_pos he] at h
    have hs : √(N : ℝ) = (R : ℝ) := by
      rw [Real.sqrt_eq_iff_mul_self_eq hN0 hR0, ← he]
      push_cast
      rfl
    rw [hs]
    have e1 : 2 * V - ((2 * R + 0 : ℕ) : ℤ) = 2 * (V - R) := by push_cast; ring
    have e2 : 2 * W - ((2 * R + 0 : ℕ) : ℤ) = 2 * (W - R) := by push_cast; ring
    rw [e1, e2, abs_mul, abs_mul] at h
    have h' : |V - (R : ℤ)| ≤ |W - (R : ℤ)| := by
      have h3 : (0 : ℤ) < |2| := by norm_num
      exact le_of_mul_le_mul_left h h3
    have h4 : ((|V - (R : ℤ)| : ℤ) : ℝ) ≤ ((|W - (R : ℤ)| : ℤ) : ℝ) := by exact_mod_cast h'
    simpa using h4
  · rw [if_neg he] at h
    have hlt : R * R < N := Nat.lt_of_le_of_ne h1 he
    have hlo : ((R : ℤ) : ℝ) < √(N : ℝ) := by
      have : (R : ℝ) < √(N : ℝ) := by
        rw [Real.lt_sqrt hR0]
        have : ((R * R : ℕ) : ℝ) < (N : ℝ) := by exact_mod_cast hlt
        rw [sq]
        exact_mod_cast this
      exact_mod_cast this
    have hhi : √(N : ℝ) < ((R : ℤ) : ℝ) + 1 := by
      have : √(N : ℝ) < (R : ℝ) + 1 := by
        rw [Real.sqrt_lt' (by positivity)]
        have : (N : ℝ) < (((R + 1) * (R + 1) : ℕ) : ℝ) := by exact_mod_cast h2
        rw [sq]
        exact_mod_cast this
      exact_mod_cast this
    have e : ((2 * R + 1 : ℕ) : ℤ) = 2 * (R : ℤ) + 1 := by push_cast; ring
    rw [e] at h
    exact sticky_transfer R V W _ hlo hhi hV hW h

end FloatFormat

namespace FloatFormat

/-- The square root of a positive value is correctly rounded: the value of `sqrt a` is at
least as close to the real square root of the value of `a` as the value of any other
pattern. -/
theorem sqrt_nearest (φ : FloatFormat) (hφ : 1 ≤ φ.bias) (a : Nat) (va : ℚ)
    (ha : φ.decode a = some va) (hpos : 0 < va)
    (hfin : φ.roundMag
      (2 * isqrt (φ.mag a * 2 ^ (2 * (φ.unitExp + φ.fbits + 4) - φ.unitExp))
        + (if isqrt (φ.mag a * 2 ^ (2 * (φ.unitExp + φ.fbits + 4) - φ.unitExp))
              * isqrt (φ.mag a * 2 ^ (2 * (φ.unitExp + φ.fbits + 4) - φ.unitExp))
            = φ.mag a * 2 ^ (2 * (φ.unitExp + φ.fbits + 4) - φ.unitExp) then 0 else 1))
      (2 ^ (φ.unitExp + φ.fbits + 4 + 1)) < φ.inf) :
    ∃ v : ℚ, φ.decode (φ.sqrt a) = some v ∧
      ∀ c w, φ.decode c = some w → |(v : ℝ) - √(va : ℝ)| ≤ |(w : ℝ) - √(va : ℝ)| := by
  obtain ⟨hs, hm, eva⟩ := key_pos_of_decode_pos φ hφ a va ha hpos
  have fa := isFinite_of_decode φ a va ha
  have hsqrt : φ.sqrt a = φ.round false
      (2 * isqrt (φ.mag a * 2 ^ (2 * (φ.unitExp + φ.fbits + 4) - φ.unitExp))
        + (if isqrt (φ.mag a * 2 ^ (2 * (φ.unitExp + φ.fbits + 4) - φ.unitExp))
              * isqrt (φ.mag a * 2 ^ (2 * (φ.unitExp + φ.fbits + 4) - φ.unitExp))
            = φ.mag a * 2 ^ (2 * (φ.unitExp + φ.fbits + 4) - φ.unitExp) then 0 else 1))
      (2 ^ (φ.unitExp + φ.fbits + 4 + 1)) := by
    simp only [sqrt, isNaN_of_isFinite φ a fa, fa, hm, hs, Bool.false_eq_true, if_false,
      if_true]
  have hexp : 2 * (φ.unitExp + φ.fbits + 4) - φ.unitExp = φ.unitExp + 2 * φ.fbits + 8 := by
    omega
  rw [hexp] at hfin hsqrt
  have hNdef : ((φ.mag a * 2 ^ (φ.unitExp + 2 * φ.fbits + 8) : ℕ) : ℝ)
      = (φ.mag a : ℝ) * 2 ^ (φ.unitExp + 2 * φ.fbits + 8) := by push_cast; rfl
  obtain ⟨hR1, hR2⟩ := isqrt_spec (φ.mag a * 2 ^ (φ.unitExp + 2 * φ.fbits + 8))
  generalize φ.mag a * 2 ^ (φ.unitExp + 2 * φ.fbits + 8) = N at hfin hsqrt hNdef hR1 hR2
  generalize isqrt N = R at hfin hsqrt hR1 hR2
  have hd : 0 < 2 ^ (φ.unitExp + φ.fbits + 4 + 1) := Nat.two_pow_pos _
  obtain ⟨_, hexpr, hsignr⟩ := roundMag_nearest φ _ _ hd hfin 0
  have hdec : φ.decode (φ.sqrt a) = some (((φ.mag (φ.roundMag
      (2 * R + (if R * R = N then 0 else 1)) (2 ^ (φ.unitExp + φ.fbits + 4 + 1)) : ℕ) : ℚ))
      / 2 ^ φ.unitExp) := by
    rw [hsqrt]
    simp only [round, Bool.false_eq_true, if_false, Nat.zero_add]
    rw [decode_eq_key φ hφ _ (by simpa [isFinite] using hexpr),
      key_of_signBit_zero φ _ hsignr]
    push_cast
    rfl
  refine ⟨_, hdec, ?_⟩
  intro c w hw
  have ew := decode_value φ hφ c w hw
  have hint := (roundMag_nearest φ _ _ hd hfin c).1
  generalize φ.mag (φ.roundMag (2 * R + (if R * R = N then 0 else 1))
    (2 ^ (φ.unitExp + φ.fbits + 4 + 1))) = mr at hint ⊢
  -- the comparison of the two candidates, in whole multiples of `2 ^ (-(unitExp + fbits + 4))`
  have hu : (0 : ℤ) < 2 ^ φ.unitExp := by positivity
  have hdcast : (((2 : ℕ) ^ (φ.unitExp + φ.fbits + 4 + 1) : ℕ) : ℤ)
      = 2 * 2 ^ (φ.fbits + 4) * 2 ^ φ.unitExp := by
    push_cast
    ring
  rw [hdcast] at hint
  have e1 : (mr : ℤ) * (2 * 2 ^ (φ.fbits + 4) * 2 ^ φ.unitExp)
      - ((2 * R + (if R * R = N then 0 else 1) : ℕ) : ℤ) * 2 ^ φ.unitExp
      = (2 * ((mr : ℤ) * 2 ^ (φ.fbits + 4))
        - ((2 * R + (if R * R = N then 0 else 1) : ℕ) : ℤ)) * 2 ^ φ.unitExp := by ring
  have e2 : (φ.mag c : ℤ) * (2 * 2 ^ (φ.fbits + 4) * 2 ^ φ.unitExp)
      - ((2 * R + (if R * R = N then 0 else 1) : ℕ) : ℤ) * 2 ^ φ.unitExp
      = (2 * ((φ.mag c : ℤ) * 2 ^ (φ.fbits + 4))
        - ((2 * R + (if R * R = N then 0 else 1) : ℕ) : ℤ)) * 2 ^ φ.unitExp := by ring
  rw [e1, e2, abs_mul, abs_mul, abs_of_pos hu] at hint
  have hint' := le_of_mul_le_mul_right hint hu
  have hG : (2 : ℤ) ∣ 2 ^ (φ.fbits + 4) := Dvd.intro_left (2 ^ (φ.fbits + 3)) (by ring)
  have hkey := sticky_root_nearest N R ((mr : ℤ) * 2 ^ (φ.fbits + 4))
    ((φ.mag c : ℤ) * 2 ^ (φ.fbits + 4)) hR1 hR2 (Dvd.dvd.mul_left hG _)
    (Dvd.dvd.mul_left hG _) hint'
  have hS : (0 : ℝ) < 2 ^ (φ.unitExp + φ.fbits + 4) := by positivity
  have hscaled := abs_scaled_le _ _ _ _ hS hkey
  -- back to values
  have hN0 : (0 : ℝ) ≤ (N : ℝ) := Nat.cast_nonneg N
  have hroot : √(va : ℝ) = √(N : ℝ) / 2 ^ (φ.unitExp + φ.fbits + 4) := by
    rw [Real.sqrt_eq_iff_mul_self_eq (by exact_mod_cast le_of_lt hpos)
      (div_nonneg (Real.sqrt_nonneg _) (le_of_lt hS))]
    rw [div_mul_div_comm, Real.mul_self_sqrt hN0, hNdef, eva]
    push_cast
    field_simp
    ring
  have hv : (((mr : ℚ) / 2 ^ φ.unitExp : ℚ) : ℝ)
      = (((mr : ℤ) * 2 ^ (φ.fbits + 4) : ℤ) : ℝ) / 2 ^ (φ.unitExp + φ.fbits + 4) := by
    push_cast
    field_simp
    ring
  have hw' : ((φ.mag c : ℝ) / 2 ^ φ.unitExp)
      = (((φ.mag c : ℤ) * 2 ^ (φ.fbits + 4) : ℤ) : ℝ) / 2 ^ (φ.unitExp + φ.fbits + 4) := by
    push_cast
    field_simp
    ring
  rw [hroot, hv]
  rw [← hw'] at hscaled
  refine le_trans hscaled ?_
  have hρ : (0 : ℝ) ≤ √(N : ℝ) / 2 ^ (φ.unitExp + φ.fbits + 4) :=
    div_nonneg (Real.sqrt_nonneg _) (le_of_lt hS)
  have hmc : (0 : ℝ) ≤ (φ.mag c : ℝ) / 2 ^ φ.unitExp := by positivity
  rw [ew]
  rcases key_eq_or_neg φ c with h | h
  · rw [h]
    push_cast
    exact le_refl _
  · rw [h]
    push_cast
    rw [neg_div]
    generalize (φ.mag c : ℝ) / 2 ^ φ.unitExp = x at hmc ⊢
    generalize √(N : ℝ) / 2 ^ (φ.unitExp + φ.fbits + 4) = ρ at hρ ⊢
    calc |x - ρ| ≤ -(-x - ρ) := abs_le.mpr ⟨by linarith, by linarith⟩
      _ ≤ |-x - ρ| := neg_le_abs _

end FloatFormat

/-! ## Claims -/

/-- C1: reading a 32-bit pattern as sign (1 bit), exponent (8 bits) and fraction (23 bits)
and taking `(-1)^s * (1.F)_2 * 2^(e-127)` gives exactly 42 for `0x42280000`, exactly
-34.75 for `0xC20B0000` and exactly 0.15625 for `0x3E200000`; the union hands the very
same bits to the `float` member, and all three patterns are normalized, with the fields
shown in the bit diagrams of the source. -/
theorem C1_patterns_decode_exactly :
    (fortytwo.f = 0x42280000 ∧ binary32.decode fortytwo.f = some 42) ∧
    (negativethirtyfourpointsevenfive.f = 0xC20B0000 ∧
      binary32.decode negativethirtyfourpointsevenfive.f = some (-34.75)) ∧
    binary32.decode 0x3E200000 = some 0.15625 ∧
    (binary32.signBit fortytwo.f = 0 ∧ binary32.expField fortytwo.f = 0b10000100 ∧
      binary32.fracField fortytwo.f = 0b01010000000000000000000 ∧
      binary32.isNormal fortytwo.f = true) ∧
    (binary32.signBit negativethirtyfourpointsevenfive.f = 1 ∧
      binary32.expField negativethirtyfourpointsevenfive.f = 0b10000100 ∧
      binary32.fracField negativethirtyfourpointsevenfive.f = 0b00010110000000000000000 ∧
      binary32.isNormal negativethirtyfourpointsevenfive.f = true) ∧
    (binary32.signBit 0x3E200000 = 0 ∧ binary32.expField 0x3E200000 = 0b01111100 ∧
      binary32.fracField 0x3E200000 = 0b01000000000000000000000 ∧
      binary32.isNormal 0x3E200000 = true) := by
  refine ⟨⟨by decide, ?_⟩, ⟨by decide, ?_⟩, ?_, ?_, ?_, ?_⟩
  · norm_num [FloatFormat.decode, FloatFormat.expField, FloatFormat.expMax,
      FloatFormat.signBit, FloatFormat.fracField, FloatFormat.bias, binary32, fortytwo,
      FloatOrUInt32.f]
  · norm_num [FloatFormat.decode, FloatFormat.expField, FloatFormat.expMax,
      FloatFormat.signBit, FloatFormat.fracField, FloatFormat.bias, binary32,
      negativethirtyfourpointsevenfive, FloatOrUInt32.f]
  · norm_num [FloatFormat.decode, FloatFormat.expField, FloatFormat.expMax,
      FloatFormat.signBit, FloatFormat.fracField, FloatFormat.bias, binary32]
  · decide
  · decide
  · decide

/-- C2: the literal `0.1f` is the pattern `0x3DCCCCCD`, whose value is at least as close to
1/10 as the value of any other pattern, so `0.1f == slightlygreaterthanzeropointone.f`
holds and the "Rounding up" line is written; the truncated pattern `0x3DCCCCCC` has a
different value, which lies below 1/10 and has a strictly larger relative error. -/
theorem C2_rounding_up_is_nearest (l : LongDoubleLimits) :
    binary32.lit 1 10 = slightlygreaterthanzeropointone.f ∧
    binary32.decode slightlygreaterthanzeropointone.f = some (13421773 / 134217728) ∧
    (∀ b w, binary32.decode b = some w →
      |(13421773 / 134217728 : ℚ) - 1 / 10| ≤ |w - 1 / 10|) ∧
    binary32.eq (binary32.lit 1 10) slightlygreaterthanzeropointone.f = true ∧
    Item.text "Rounding up gives 0.1f = " ∈ FloatingPointExample l ∧
    binary32.decode slightlylessthanzeropointone.f = some (13421772 / 134217728) ∧
    (13421772 / 134217728 : ℚ) ≠ 13421773 / 134217728 ∧
    (13421772 / 134217728 : ℚ) < 1 / 10 ∧
    |(13421773 / 134217728 : ℚ) - 1 / 10| / |(1 / 10 : ℚ)|
      < |(13421772 / 134217728 : ℚ) - 1 / 10| / |(1 / 10 : ℚ)| := by
  have hlit : binary32.lit 1 10 = slightlygreaterthanzeropointone.f := by decide!
  have hdec : binary32.decode slightlygreaterthanzeropointone.f
      = some (13421773 / 134217728) := by
    norm_num [FloatFormat.decode, FloatFormat.expField, FloatFormat.expMax,
      FloatFormat.signBit, FloatFormat.fracField, FloatFormat.bias, binary32,
      slightlygreaterthanzeropointone, FloatOrUInt32.f]
  have heq : binary32.eq (binary32.lit 1 10) slightlygreaterthanzeropointone.f = true := by
    decide!
  refine ⟨hlit, hdec, ?_, heq, ?_, ?_, ?_, ?_, ?_⟩
  · obtain ⟨v, hv, hnear⟩ := FloatFormat.lit_nearest binary32 (by decide) 1 10 (by decide)
      (by decide!)
    rw [hlit, hdec] at hv
    have hv' : v = 13421773 / 134217728 := (Option.some.inj hv).symm
    subst hv'
    intro b w hw
    have := hnear b w hw
    norm_num at this ⊢
    exact this
  · simp [FloatingPointExample, heq]
  · norm_num [FloatFormat.decode, FloatFormat.expField, FloatFormat.expMax,
      FloatFormat.signBit, FloatFormat.fracField, FloatFormat.bias, binary32,
      slightlylessthanzeropointone, FloatOrUInt32.f]
  · norm_num
  · norm_num
  · norm_num [abs_of_pos, abs_of_neg]

/-- C3: in single precision `1000000.0f + 0.01f` is `1000000.0f`: the value 1000000 is at
least as close to the exact sum of the two operands as the value of any other pattern,
because the addend is smaller than half the distance from 1000000 to the next value
above it; so the condition of the source is true and its line is written. -/
theorem C3_absorption (l : LongDoubleLimits) :
    binary32.decode (binary32.lit 1000000 1) = some 1000000 ∧
    binary32.decode (binary32.lit 1 100) = some (5368709 / 536870912) ∧
    binary32.add (binary32.lit 1000000 1) (binary32.lit 1 100) = binary32.lit 1000000 1 ∧
    (∀ b w, binary32.decode b = some w →
      |(1000000 : ℚ) - (1000000 + 5368709 / 536870912)|
        ≤ |w - (1000000 + 5368709 / 536870912)|) ∧
    binary32.decode (binary32.lit 1000000 1 + 1) = some (1000000 + 1 / 16) ∧
    (5368709 / 536870912 : ℚ) < 1 / 16 / 2 ∧
    binary32.eq (binary32.add (binary32.lit 1000000 1) (binary32.lit 1 100))
      (binary32.lit 1000000 1) = true ∧
    Item.text "One million plus one one-hundredth is equal to one million.\n"
      ∈ FloatingPointExample l := by
  have h1 : binary32.lit 1000000 1 = 0x49742400 := by decide!
  have h2 : binary32.lit 1 100 = 0x3C23D70A := by decide!
  have hd1 : binary32.decode 0x49742400 = some 1000000 := by
    norm_num [FloatFormat.decode, FloatFormat.expField, FloatFormat.expMax,
      FloatFormat.signBit, FloatFormat.fracField, FloatFormat.bias, binary32]
  have hd2 : binary32.decode 0x3C23D70A = some (5368709 / 536870912) := by
    norm_num [FloatFormat.decode, FloatFormat.expField, FloatFormat.expMax,
      FloatFormat.signBit, FloatFormat.fracField, FloatFormat.bias, binary32]
  have hadd : binary32.add 0x49742400 0x3C23D70A = 0x49742400 := by decide!
  have heq : binary32.eq (binary32.add (binary32.lit 1000000 1) (binary32.lit 1 100))
      (binary32.lit 1000000 1) = true := by decide!
  rw [h1, h2]
  refine ⟨hd1, hd2, hadd, ?_, ?_, ?_, ?_, ?_⟩
  · obtain ⟨v, hv, hnear⟩ := FloatFormat.add_nearest binary32 (by decide) 0x49742400
      0x3C23D70A 1000000 (5368709 / 536870912) hd1 hd2 (by decide!)
    rw [hadd, hd1] at hv
    have hv' : v = 1000000 := (Option.some.inj hv).symm
    subst hv'
    exact hnear
  · norm_num [FloatFormat.decode, FloatFormat.expField, FloatFormat.expMax,
      FloatFormat.signBit, FloatFormat.fracField, FloatFormat.bias, binary32]
  · norm_num
  · rw [← h1, ← h2]
    exact heq
  · simp [FloatingPointExample, heq]

/-- C4: `Vec3_DotProduct(position, normal)` returns the pattern `0x34000000`, whose value
`2 ^ (-23)` is not 0 and is at most `FLT_EPSILON = 2 ^ (-23)` in absolute value, so the
`== 0.0f` branch is not taken and the `<= FLT_EPSILON` branch is taken.  Every step is
rounded to nearest in single precision: the square root of 3, its reciprocal, the three
literals of the position, the three products and the two sums each have a value at
least as close to the exact result on the values of their operands as the value of any
other pattern. -/
theorem C4_dot_product_within_epsilon (l : LongDoubleLimits) :
    (∃ s3 c px py pz a b c' t d : ℚ,
      (binary32.decode (binary32.sqrt (binary32.lit 3 1)) = some s3 ∧
        ∀ e w, binary32.decode e = some w → |(s3 : ℝ) - √3| ≤ |(w : ℝ) - √3|) ∧
      (binary32.decode normal.x = some c ∧ normal.y = normal.x ∧ normal.z = normal.x ∧
        ∀ e w, binary32.decode e = some w → |c - 1 / s3| ≤ |w - 1 / s3|) ∧
      (binary32.decode position.x = some px ∧
        ∀ e w, binary32.decode e = some w → |px - 0.78063| ≤ |w - 0.78063|) ∧
      (binary32.decode position.y = some py ∧
        ∀ e w, binary32.decode e = some w → |py - 0.984654| ≤ |w - 0.984654|) ∧
      (binary32.decode position.z = some pz ∧
        ∀ e w, binary32.decode e = some w → |pz - -1.765284| ≤ |w - -1.765284|) ∧
      (binary32.decode (binary32.mul position.x normal.x) = some a ∧
        ∀ e w, binary32.decode e = some w → |a - px * c| ≤ |w - px * c|) ∧
      (binary32.decode (binary32.mul position.y normal.y) = some b ∧
        ∀ e w, binary32.decode e = some w → |b - py * c| ≤ |w - py * c|) ∧
      (binary32.decode (binary32.mul position.z normal.z) = some c' ∧
        ∀ e w, binary32.decode e = some w → |c' - pz * c| ≤ |w - pz * c|) ∧
      (binary32.decode (binary32.add (binary32.mul position.x normal.x)
          (binary32.mul position.y normal.y)) = some t ∧
        ∀ e w, binary32.decode e = some w → |t - (a + b)| ≤ |w - (a + b)|) ∧
      (binary32.decode (Vec3_DotProduct position normal) = some d ∧
        ∀ e w, binary32.decode e = some w → |d - (t + c')| ≤ |w - (t + c')|) ∧
      d = 1 / 2 ^ 23 ∧ d ≠ 0 ∧ |d| ≤ 1 / 2 ^ 23) ∧
    Vec3_DotProduct position normal = 0x34000000 ∧
    binary32.decode FLT_EPSILON = some (1 / 2 ^ 23) ∧
    binary32.eq (Vec3_DotProduct position normal) (binary32.lit 0 1) = false ∧
    binary32.le (Vec3_DotProduct position normal) FLT_EPSILON = true ∧
    Item.text "This won't get printed because the floating point result is not exactly zero.\n"
      ∉ FloatingPointExample l ∧
    Item.text "This will get printed, because Vec3_DotProduct(position, normal) actually returns "
      ∈ FloatingPointExample l ∧
    Item.float (Vec3_DotProduct position normal) ∈ FloatingPointExample l := by
  have hb : 1 ≤ binary32.bias := by decide
  -- the patterns computed along the way
  have k3 : binary32.lit 3 1 = 0x40400000 := by decide!
  have ks : binary32.sqrt 0x40400000 = 0x3FDDB3D7 := by decide!
  have kn : binary32.div 0x3F800000 0x3FDDB3D7 = 0x3F13CD3A := by decide!
  have kx : position.x = 0x3F47D75E := by decide!
  have ky : position.y = 0x3F7C1249 := by decide!
  have kz : position.z = 0xBFE1F4D3 := by decide!
  have ka : binary32.mul 0x3F47D75E 0x3F13CD3A = 0x3EE6C1BF := by decide!
  have kb : binary32.mul 0x3F7C1249 0x3F13CD3A = 0x3F118894 := by decide!
  have kc : binary32.mul 0xBFE1F4D3 0x3F13CD3A = 0xBF8274B9 := by decide!
  have kt : binary32.add 0x3EE6C1BF 0x3F118894 = 0x3F8274BA := by decide!
  have kd : binary32.add 0x3F8274BA 0xBF8274B9 = 0x34000000 := by decide!
  have nx : normal.x = 0x3F13CD3A := by decide!
  have ny : normal.y = normal.x := rfl
  have nz : normal.z = normal.x := rfl
  have hdot : Vec3_DotProduct position normal = 0x34000000 := by
    unfold Vec3_DotProduct
    rw [ny, nz, nx, kx, ky, kz, ka, kb, kc, kt, kd]
  -- their values
  have v3 : binary32.decode 0x40400000 = some 3 := by
    norm_num [FloatFormat.decode, FloatFormat.expField, FloatFormat.expMax,
      FloatFormat.signBit, FloatFormat.fracField, FloatFormat.bias, binary32]
  have v1 : binary32.decode 0x3F800000 = some 1 := by
    norm_num [FloatFormat.decode, FloatFormat.expField, FloatFormat.expMax,
      FloatFormat.signBit, FloatFormat.fracField, FloatFormat.bias, binary32]
  have vs : binary32.decode 0x3FDDB3D7 = some (14529495 / 8388608) := by
    norm_num [FloatFormat.decode, FloatFormat.expField, FloatFormat.expMax,
      FloatFormat.signBit, FloatFormat.fracField, FloatFormat.bias, binary32]
  have vn : binary32.decode 0x3F13CD3A = some (4843165 / 8388608) := by
    norm_num [FloatFormat.decode, FloatFormat.expField, FloatFormat.expMax,
      FloatFormat.signBit, FloatFormat.fracField, FloatFormat.bias, binary32]
  have vx : binary32.decode 0x3F47D75E = some (6548399 / 8388608) := by
    norm_num [FloatFormat.decode, FloatFormat.expField, FloatFormat.expMax,
      FloatFormat.signBit, FloatFormat.fracField, FloatFormat.bias, binary32]
  have vy : binary32.decode 0x3F7C1249 = some (16519753 / 16777216) := by
    norm_num [FloatFormat.decode, FloatFormat.expField, FloatFormat.expMax,
      FloatFormat.signBit, FloatFormat.fracField, FloatFormat.bias, binary32]
  have vz : binary32.decode 0xBFE1F4D3 = some (-(14808275 / 8388608)) := by
    norm_num [FloatFormat.decode, FloatFormat.expField, FloatFormat.expMax,
      FloatFormat.signBit, FloatFormat.fracField, FloatFormat.bias, binary32]
  have va : binary32.decode 0x3EE6C1BF = some (15122879 / 33554432) := by
    norm_num [FloatFormat.decode, FloatFormat.expField, FloatFormat.expMax,
      FloatFormat.signBit, FloatFormat.fracField, FloatFormat.bias, binary32]
  have vb : binary32.decode 0x3F118894 = some (2384421 / 4194304) := by
    norm_num [FloatFormat.decode, FloatFormat.expField, FloatFormat.expMax,
      FloatFormat.signBit, FloatFormat.fracField, FloatFormat.bias, binary32]
  have vc : binary32.decode 0xBF8274B9 = some (-(8549561 / 8388608)) := by
    norm_num [FloatFormat.decode, FloatFormat.expField, FloatFormat.expMax,
      FloatFormat.signBit, FloatFormat.fracField, FloatFormat.bias, binary32]
  have vt : binary32.decode 0x3F8274BA = some (4274781 / 4194304) := by
    norm_num [FloatFormat.decode, FloatFormat.expField, FloatFormat.expMax,
      FloatFormat.signBit, FloatFormat.fracField, FloatFormat.bias, binary32]
  have vd : binary32.decode 0x34000000 = some (1 / 2 ^ 23) := by
    norm_num [FloatFormat.decode, FloatFormat.expField, FloatFormat.expMax,
      FloatFormat.signBit, FloatFormat.fracField, FloatFormat.bias, binary32]
  have heps : FLT_EPSILON = 0x34000000 := by decide!
  have heq : binary32.eq (Vec3_DotProduct position normal) (binary32.lit 0 1) = false := by
    rw [hdot]
    decide!
  have hle : binary32.le (Vec3_DotProduct position normal) FLT_EPSILON = true := by
    rw [hdot, heps]
    decide!
  refine ⟨⟨14529495 / 8388608, 4843165 / 8388608, 6548399 / 8388608, 16519753 / 16777216,
    -(14808275 / 8388608), 15122879 / 33554432, 2384421 / 4194304, -(8549561 / 8388608),
    4274781 / 4194304, 1 / 2 ^ 23, ⟨?_, ?_⟩, ⟨?_, ny, nz, ?_⟩, ⟨?_, ?_⟩, ⟨?_, ?_⟩, ⟨?_, ?_⟩,
    ⟨?_, ?_⟩, ⟨?_, ?_⟩, ⟨?_, ?_⟩, ⟨?_, ?_⟩, ⟨?_, ?_⟩, rfl, by norm_num,
    by norm_num [abs_of_pos]⟩, hdot, ?_, heq, hle, ?_, ?_, ?_⟩
  · rw [k3, ks, vs]
  · obtain ⟨v, hv, hn⟩ := FloatFormat.sqrt_nearest binary32 hb 0x40400000 3 v3 (by norm_num)
      (by decide!)
    rw [ks, vs] at hv
    have hv' : v = 14529495 / 8388608 := (Option.some.inj hv).symm
    subst hv'
    intro e w hw
    simpa using hn e w hw
  · rw [nx, vn]
  · obtain ⟨v, hv, hn⟩ := FloatFormat.div_nearest binary32 hb 0x3F800000 0x3FDDB3D7 1
      (14529495 / 8388608) v1 vs (by norm_num) (by decide!)
    rw [kn, vn] at hv
    have hv' : v = 4843165 / 8388608 := (Option.some.inj hv).symm
    subst hv'
    exact hn
  · rw [kx, vx]
  · obtain ⟨v, hv, hn⟩ := FloatFormat.lit_nearest binary32 hb 78063 100000 (by norm_num)
      (by decide!)
    have hx : binary32.lit 78063 100000 = 0x3F47D75E := kx
    rw [hx, vx] at hv
    have hv' : v = 6548399 / 8388608 := (Option.some.inj hv).symm
    subst hv'
    intro e w hw
    have := hn e w hw
    norm_num at this ⊢
    exact this
  · rw [ky, vy]
  · obtain ⟨v, hv, hn⟩ := FloatFormat.lit_nearest binary32 hb 984654 1000000 (by norm_num)
      (by decide!)
    have hy : binary32.lit 984654 1000000 = 0x3F7C1249 := ky
    rw [hy, vy] at hv
    have hv' : v = 16519753 / 16777216 := (Option.some.inj hv).symm
    subst hv'
    intro e w hw
    have := hn e w hw
    norm_num at this ⊢
    exact this
  · rw [kz, vz]
  · obtain ⟨v, hv, hn⟩ := FloatFormat.round_nearest binary32 hb true 1765284 1000000
      (by norm_num) (by decide!)
    have hz : binary32.round true 1765284 1000000 = 0xBFE1F4D3 := by decide!
    rw [hz, vz] at hv
    have hv' : v = -(14808275 / 8388608) := (Option.some.inj hv).symm
    subst hv'
    intro e w hw
    have := hn e w hw
    norm_num at this ⊢
    exact this
  · rw [kx, nx, ka, va]
  · obtain ⟨v, hv, hn⟩ := FloatFormat.mul_nearest binary32 hb 0x3F47D75E 0x3F13CD3A _ _ vx vn
      (by decide!)
    rw [ka, va] at hv
    have hv' : v = 15122879 / 33554432 := (Option.some.inj hv).symm
    subst hv'
    exact hn
  · rw [ky, ny, nx, kb, vb]
  · obtain ⟨v, hv, hn⟩ := FloatFormat.mul_nearest binary32 hb 0x3F7C1249 0x3F13CD3A _ _ vy vn
      (by decide!)
    rw [kb, vb] at hv
    have hv' : v = 2384421 / 4194304 := (Option.some.inj hv).symm
    subst hv'
    exact hn
  · rw [kz, nz, nx, kc, vc]
  · obtain ⟨v, hv, hn⟩ := FloatFormat.mul_nearest binary32 hb 0xBFE1F4D3 0x3F13CD3A _ _ vz vn
      (by decide!)
    rw [kc, vc] at hv
    have hv' : v = -(8549561 / 8388608) := (Option.some.inj hv).symm
    subst hv'
    exact hn
  · rw [kx, ky, ny, nx, ka, kb, kt, vt]
  · obtain ⟨v, hv, hn⟩ := FloatFormat.add_nearest binary32 hb 0x3EE6C1BF 0x3F118894 _ _ va vb
      (by decide!)
    rw [kt, vt] at hv
    have hv' : v = 4274781 / 4194304 := (Option.some.inj hv).symm
    subst hv'
    exact hn
  · rw [hdot, vd]
  · obtain ⟨v, hv, hn⟩ := FloatFormat.add_nearest binary32 hb 0x3F8274BA 0xBF8274B9 _ _ vt vc
      (by decide!)
    rw [kd, vd] at hv
    have hv' : v = 1 / 2 ^ 23 := (Option.some.inj hv).symm
    subst hv'
    exact hn
  · rw [heps]
    exact vd
  · simp [FloatingPointExample, heq]
  · simp [FloatingPointExample, hle]
  · simp [FloatingPointExample, hle]

/-- C5: the digit strings "347" in base 8, "E7" in base 16 and "11100111" in base 2, read
most significant digit first with A-F standing for 10-15, each yield 231, as does "231" in
base 10; hence the literals `0347`, `0xE7` and `0b11100111` all equal `231`, both
conditions of the source are true and both lines are written. -/
theorem C5_radix_representations_agree (t : Target) :
    readDigits 8 "347".toList 0 = some 231 ∧
    readDigits 16 "E7".toList 0 = some 231 ∧
    readDigits 2 "11100111".toList 0 = some 231 ∧
    readDigits 10 "231".toList 0 = some 231 ∧
    (digitValue 'A' = some 10 ∧ digitValue 'B' = some 11 ∧ digitValue 'C' = some 12 ∧
      digitValue 'D' = some 13 ∧ digitValue 'E' = some 14 ∧ digitValue 'F' = some 15) ∧
    intLiteral "0347" = some 231 ∧
    intLiteral "0xE7" = some 231 ∧
    intLiteral "0b11100111" = some 231 ∧
    intLiteral "231" = some 231 ∧
    Item.text "231 is 347 in octal or E7 in hexadecimal.\n" ∈ IntegersExample t ∧
    Item.text "231 is 11100111 in binary.\n" ∈ IntegersExample t := by
  have h8 : intLiteral "0347" = some 231 := by decide
  have h16 : intLiteral "0xE7" = some 231 := by decide
  have h2 : intLiteral "0b11100111" = some 231 := by decide
  have h10 : intLiteral "231" = some 231 := by decide
  refine ⟨by decide, by decide, by decide, by decide, by decide, h8, h16, h2, h10, ?_, ?_⟩
  · simp [IntegersExample, h8, h16, h10]
  · simp [IntegersExample, h2, h10]

/-- C6: the 32-bit pattern `0xFFFFFFFD` read as a two's-complement signed integer is
exactly -3, and -3 converted to a 32-bit unsigned word is `0xFFFFFFFD`; so the comparison
`-3 == 0xFFFFFFFD` is true and its line is written. -/
theorem C6_minus_three_pattern (t : Target) :
    toSigned 32 0xFFFFFFFD = -3 ∧
    toUnsigned 32 (-3) = 0xFFFFFFFD ∧
    Item.text "This is how negative numbers look to a computer.\n" ∈ IntegersExample t := by
  have h : toUnsigned 32 (-3) = 0xFFFFFFFD := by decide
  refine ⟨by decide, h, ?_⟩
  simp [IntegersExample, h]

/-- C7, as stated, fails: the bitwise NOT of the all-ones word is 0, so
`(~0xFFFFFFFF) + 1` is 1 and not 0. -/
theorem C7_not_of_all_ones_plus_one_is_one :
    not32 0xFFFFFFFF = 0 ∧ add32 (not32 0xFFFFFFFF) 1 = 1 ∧ add32 (not32 0xFFFFFFFF) 1 ≠ 0 := by
  decide

/-- C7, amended: under 32-bit unsigned wraparound arithmetic `(~0) + 1 == 0`: the bitwise
NOT of the all-zeros word is the all-ones word `0xFFFFFFFF`, which is what the source
computes as `0 ^ 0xFFFFFFFF`, and the all-ones word plus one wraps to zero; so the
condition `(0 ^ 0xFFFFFFFF) + 1 == 0` is true and its line is written. -/
theorem C7_not_of_zero_plus_one_wraps (t : Target) :
    not32 0 = 0xFFFFFFFF ∧
    xor32 (toUnsigned 32 0) 0xFFFFFFFF = not32 0 ∧
    0xFFFFFFFF + 1 = 2 ^ 32 ∧
    add32 (not32 0) 1 = 0 ∧
    add32 (xor32 (toUnsigned 32 0) 0xFFFFFFFF) (toUnsigned 32 1) = toUnsigned 32 0 ∧
    Item.text "This is how two's complement avoids two representations of zero.\n"
      ∈ IntegersExample t := by
  have h : add32 (xor32 (toUnsigned 32 0) 0xFFFFFFFF) (toUnsigned 32 1) = toUnsigned 32 0 := by
    decide
  refine ⟨by decide, by decide, by decide, by decide, h, ?_⟩
  simp [IntegersExample, h]

/-- The least and the greatest two's-complement readings are attained. -/
theorem toSigned_attained (n : Nat) (hn : 0 < n) :
    toSigned n (2 ^ (n - 1)) = -2 ^ (n - 1) ∧ toSigned n (2 ^ (n - 1) - 1) = 2 ^ (n - 1) - 1 := by
  obtain ⟨k, rfl⟩ : ∃ k, n = k + 1 := ⟨n - 1, by omega⟩
  have hk : 0 < 2 ^ k := Nat.two_pow_pos k
  have hp : 2 ^ (k + 1) = 2 * 2 ^ k := by rw [pow_succ, Nat.mul_comm]
  have hpz : (2 : Int) ^ (k + 1) = 2 * 2 ^ k := by rw [pow_succ, mul_comm]
  simp only [Nat.add_sub_cancel]
  constructor
  · unfold toSigned
    simp only [Nat.add_sub_cancel]
    rw [Nat.mod_eq_of_lt (by omega), if_neg (by omega)]
    push_cast
    omega
  · unfold toSigned
    simp only [Nat.add_sub_cancel]
    rw [Nat.mod_eq_of_lt (by omega), if_pos (by omega)]
    push_cast [Nat.cast_sub hk]
    omega

/-- C8: for the widths 16, 32 and 64 the reported bounds are the ends of the representable
range: the unsigned maximum is `2 ^ n - 1` and the signed minimum and maximum are
`-2 ^ (n - 1)` and `2 ^ (n - 1) - 1`, which bound the unsigned and the two's-complement
reading of every `n`-bit word and are attained (for a short: 0..65535 and -32768..32767);
`long` has the width `8 * sizeof(long)` of the target. -/
theorem C8_integer_limits (t : Target) (ht : t.longBytes = 4 ∨ t.longBytes = 8) :
    (USHRT_MAX = 2 ^ 16 - 1 ∧ SHRT_MIN = -2 ^ (16 - 1) ∧ SHRT_MAX = 2 ^ (16 - 1) - 1) ∧
    (UINT_MAX = 2 ^ 32 - 1 ∧ INT_MIN = -2 ^ (32 - 1) ∧ INT_MAX = 2 ^ (32 - 1) - 1) ∧
    (ULONG_MAX t = 2 ^ (8 * t.longBytes) - 1 ∧ LONG_MIN t = -2 ^ (8 * t.longBytes - 1) ∧
      LONG_MAX t = 2 ^ (8 * t.longBytes - 1) - 1) ∧
    (ULLONG_MAX = 2 ^ 64 - 1 ∧ LLONG_MIN = -2 ^ (64 - 1) ∧ LLONG_MAX = 2 ^ (64 - 1) - 1) ∧
    (USHRT_MAX = 65535 ∧ SHRT_MIN = -32768 ∧ SHRT_MAX = 32767) ∧
    (∀ n, n = 16 ∨ n = 32 ∨ n = 64 →
      (∀ w, 0 ≤ toUnsigned n w ∧ toUnsigned n w ≤ 2 ^ n - 1) ∧
      toUnsigned n 0 = 0 ∧ toUnsigned n (2 ^ n - 1) = 2 ^ n - 1 ∧
      (∀ w, -2 ^ (n - 1) ≤ toSigned n w ∧ toSigned n w ≤ 2 ^ (n - 1) - 1) ∧
      toSigned n (2 ^ (n - 1)) = -2 ^ (n - 1) ∧
      toSigned n (2 ^ (n - 1) - 1) = 2 ^ (n - 1) - 1) ∧
    (Item.nat USHRT_MAX ∈ IntegersExample t ∧ Item.nat UINT_MAX ∈ IntegersExample t ∧
      Item.nat (ULONG_MAX t) ∈ IntegersExample t ∧ Item.nat ULLONG_MAX ∈ IntegersExample t ∧
      Item.int SHRT_MIN ∈ IntegersExample t ∧ Item.int SHRT_MAX ∈ IntegersExample t ∧
      Item.int INT_MIN ∈ IntegersExample t ∧ Item.int INT_MAX ∈ IntegersExample t ∧
      Item.int (LONG_MIN t) ∈ IntegersExample t ∧ Item.int (LONG_MAX t) ∈ IntegersExample t ∧
      Item.int LLONG_MIN ∈ IntegersExample t ∧ Item.int LLONG_MAX ∈ IntegersExample t) := by
  refine ⟨by decide, by decide, ?_, by decide, by decide, ?_, ?_⟩
  · rcases ht with h | h <;> simp [ULONG_MAX, LONG_MIN, LONG_MAX, h]
  · intro n hn
    have hn0 : 0 < n := by omega
    have hpos : (0 : Int) < 2 ^ n := by positivity
    refine ⟨fun w => ⟨Nat.zero_le _, ?_⟩, ?_, ?_, fun w => ?_, ?_, ?_⟩
    · unfold toUnsigned
      have h1 := Int.emod_lt_of_pos w hpos
      have h2 := Int.emod_nonneg w (ne_of_gt hpos)
      have h3 : ((2 ^ n : ℕ) : ℤ) = 2 ^ n := by push_cast; rfl
      have h4 : 0 < 2 ^ n := Nat.two_pow_pos n
      omega
    · simp [toUnsigned]
    · rcases hn with h | h | h <;> subst h <;> decide
    · have := toSigned_bounds n hn0 w
      exact ⟨by simpa using this.1, this.2⟩
    · exact (toSigned_attained n hn0).1
    · exact (toSigned_attained n hn0).2
  · simp [IntegersExample]

/-- C8 at a target whose `long` has 4 bytes. -/
theorem C8_integer_limits_witness :
    ((⟨4⟩ : Target).longBytes = 4 ∨ (⟨4⟩ : Target).longBytes = 8) ∧
    ULONG_MAX ⟨4⟩ = 2 ^ (8 * 4) - 1 ∧ LONG_MIN ⟨4⟩ = -2 ^ (8 * 4 - 1) ∧
    LONG_MAX ⟨4⟩ = 2 ^ (8 * 4 - 1) - 1 :=
  ⟨Or.inl rfl, (C8_integer_limits ⟨4⟩ (Or.inl rfl)).2.2.1⟩

/-- C10: two's-complement negation is bit inversion plus one: for every 32-bit word `x`,
`(x ^ 0xFFFFFFFF) + 1` modulo `2 ^ 32` is `(2 ^ 32 - x) mod 2 ^ 32`, the representation
of `-x`; for `x = 0` the sum is `2 ^ 32`, which wraps to 0, so 0 is the only word read
as zero and the condition `(0 ^ 0xFFFFFFFF) + 1 == 0` is true. -/
theorem C10_negation_is_invert_plus_one (x : Nat) (hx : x < 2 ^ 32) :
    add32 (xor32 x 0xFFFFFFFF) 1 = (2 ^ 32 - x) % 2 ^ 32 ∧
    add32 (xor32 x 0xFFFFFFFF) 1 = toUnsigned 32 (-(x : Int)) ∧
    (x ≠ 2 ^ 31 → toSigned 32 (add32 (xor32 x 0xFFFFFFFF) 1) = -toSigned 32 x) ∧
    (xor32 0 0xFFFFFFFF + 1 = 2 ^ 32 ∧ add32 (xor32 0 0xFFFFFFFF) 1 = 0) ∧
    (toSigned 32 x = 0 ↔ x = 0) ∧
    (add32 (xor32 (toUnsigned 32 0) 0xFFFFFFFF) (toUnsigned 32 1) = toUnsigned 32 0) := by
  have hnot : xor32 x 0xFFFFFFFF = 2 ^ 32 - 1 - x := not32_eq x hx
  have h1 : add32 (xor32 x 0xFFFFFFFF) 1 = (2 ^ 32 - x) % 2 ^ 32 := by
    rw [hnot]
    unfold add32
    congr 1
    omega
  have hpow : (2 : Int) ^ 32 = 4294967296 := by norm_num
  have hpowN : (2 : Nat) ^ 32 = 4294967296 := by norm_num
  have hpow31 : (2 : Nat) ^ (32 - 1) = 2147483648 := by norm_num
  refine ⟨h1, ?_, ?_, by decide, ?_, by decide⟩
  · rw [h1]
    unfold toUnsigned
    rw [hpow, hpowN] at *
    omega
  · intro hne
    rw [h1]
    unfold toSigned
    rw [hpow, hpowN, hpow31] at *
    have hm : x % 4294967296 = x := Nat.mod_eq_of_lt hx
    rw [hm]
    split <;> split <;> omega
  · unfold toSigned
    rw [hpow, hpowN, hpow31] at *
    have hm : x % 4294967296 = x := Nat.mod_eq_of_lt hx
    rw [hm]
    split <;> omega

/-- C10 at `x = 3`: inverting `0...0011` and adding one gives `1...1101 = 0xFFFFFFFD`. -/
theorem C10_negation_is_invert_plus_one_witness :
    3 < 2 ^ 32 ∧ xor32 3 0xFFFFFFFF = 0xFFFFFFFC ∧
    add32 (xor32 3 0xFFFFFFFF) 1 = 0xFFFFFFFD ∧ (2 ^ 32 - 3) % 2 ^ 32 = 0xFFFFFFFD :=
  ⟨by decide, by decide,
    (C10_negation_is_invert_plus_one 3 (by decide)).1.trans (by decide), by decide⟩

namespace FloatFormat

/-- The magnitude of a finite pattern is at most that of the pattern with the largest
finite exponent field and all significand bits set. -/
theorem mag_le_max (φ : FloatFormat) (b : Nat) (hb : φ.expField b < φ.expMax) :
    φ.mag b ≤ (2 ^ (φ.fbits + 1) - 1) * 2 ^ (φ.expMax - 2) := by
  have hF := φ.fracField_lt b
  have hP : 0 < 2 ^ φ.fbits := Nat.two_pow_pos _
  have h2 : 2 ^ (φ.fbits + 1) = 2 ^ φ.fbits * 2 := pow_succ 2 φ.fbits
  unfold mag
  by_cases he : φ.expField b = 0
  · rw [if_pos he]
    calc φ.fracField b ≤ (2 ^ (φ.fbits + 1) - 1) * 1 := by omega
      _ ≤ (2 ^ (φ.fbits + 1) - 1) * 2 ^ (φ.expMax - 2) :=
        Nat.mul_le_mul_left _ Nat.one_le_two_pow
  · rw [if_neg he]
    exact Nat.mul_le_mul (by omega) (Nat.pow_le_pow_right (by norm_num) (by omega))

/-- A normalized pattern has magnitude at least `2 ^ fbits` units. -/
theorem le_mag_of_isNormal (φ : FloatFormat) (b : Nat) (hb : φ.isNormal b = true) :
    2 ^ φ.fbits ≤ φ.mag b := by
  simp only [isNormal, decide_eq_true_eq] at hb
  unfold mag
  rw [if_neg (by omega)]
  calc 2 ^ φ.fbits = 2 ^ φ.fbits * 1 := (Nat.mul_one _).symm
    _ ≤ (2 ^ φ.fbits + φ.fracField b) * 2 ^ (φ.expField b - 1) :=
      Nat.mul_le_mul (by omega) Nat.one_le_two_pow

/-- Every value lies between the negated and the plain largest finite magnitude. -/
theorem decode_abs_le (φ : FloatFormat) (hφ : 1 ≤ φ.bias) (b : Nat) (w : ℚ)
    (h : φ.decode b = some w) :
    |w| ≤ (((2 ^ (φ.fbits + 1) - 1) * 2 ^ (φ.expMax - 2) : ℕ) : ℚ) / 2 ^ φ.unitExp := by
  have hfin := isFinite_of_decode φ b w h
  have hw := decode_value φ hφ b w h
  have hm := mag_le_max φ b (by simpa [isFinite] using hfin)
  have hu : (0 : ℚ) < 2 ^ φ.unitExp := by positivity
  rw [hw, abs_div, abs_of_pos hu]
  apply div_le_div_of_nonneg_right _ (le_of_lt hu)
  have hk : |(φ.key b : ℚ)| = (φ.mag b : ℚ) := by
    rcases key_eq_or_neg φ b with e | e <;> rw [e] <;> simp
  rw [hk]
  exact_mod_cast hm

/-- A positive value is at least one unit, and at least `2 ^ fbits` units when its
pattern is normalized. -/
theorem decode_pos_ge (φ : FloatFormat) (hφ : 1 ≤ φ.bias) (b : Nat) (w : ℚ)
    (h : φ.decode b = some w) (hpos : 0 < w) :
    1 / 2 ^ φ.unitExp ≤ w ∧
      (φ.isNormal b = true → (2 : ℚ) ^ φ.fbits / 2 ^ φ.unitExp ≤ w) := by
  have hw := decode_value φ hφ b w h
  have hu : (0 : ℚ) < 2 ^ φ.unitExp := by positivity
  have hk : (0 : ℚ) < (φ.key b : ℚ) := by
    rw [hw] at hpos
    exact (div_pos_iff_of_pos_right hu).mp hpos
  have hk' : (0 : ℤ) < φ.key b := by exact_mod_cast hk
  have hkm : φ.key b = (φ.mag b : ℤ) := by
    rcases key_eq_or_neg φ b with e | e
    · exact e
    · rw [e] at hk'
      have := Int.ofNat_nonneg (φ.mag b)
      omega
  rw [hw, hkm]
  constructor
  · apply div_le_div_of_nonneg_right _ (le_of_lt hu)
    have : 1 ≤ φ.mag b := by
      rw [hkm] at hk'
      exact_mod_cast hk'
    exact_mod_cast this
  · intro hn
    apply div_le_div_of_nonneg_right _ (le_of_lt hu)
    have := le_mag_of_isNormal φ b hn
    exact_mod_cast this

end FloatFormat

/-- C9: the reported floating-point bounds are the extremes of the format.  In single
precision `FLT_MAX` has the value `(2 - 2^-23) * 2^127`, the largest value of any finite
pattern, and `-FLT_MAX` is the least; `FLT_MIN` has the value `2^-126`, the smallest
positive value of a normalized pattern; `FLT_TRUE_MIN` has the value `2^-149`, the
smallest positive value of any pattern.  The same holds in double precision with
`(2 - 2^-52) * 2^1023`, `2^-1022` and `2^-1074`. -/
theorem C9_floating_point_limits (l : LongDoubleLimits) :
    (binary32.decode FLT_MAX = some ((2 - 1 / 2 ^ 23) * 2 ^ 127) ∧
      binary32.decode (binary32.neg FLT_MAX) = some (-((2 - 1 / 2 ^ 23) * 2 ^ 127)) ∧
      (∀ b w, binary32.decode b = some w →
        -((2 - 1 / 2 ^ 23) * 2 ^ 127) ≤ w ∧ w ≤ (2 - 1 / 2 ^ 23) * 2 ^ 127) ∧
      binary32.decode FLT_MIN = some (1 / 2 ^ 126) ∧ binary32.isNormal FLT_MIN = true ∧
      (∀ b w, binary32.isNormal b = true → binary32.decode b = some w → 0 < w →
        1 / 2 ^ 126 ≤ w) ∧
      binary32.decode FLT_TRUE_MIN = some (1 / 2 ^ 149) ∧
      (∀ b w, binary32.decode b = some w → 0 < w → 1 / 2 ^ 149 ≤ w)) ∧
    (binary64.decode DBL_MAX = some ((2 - 1 / 2 ^ 52) * 2 ^ 1023) ∧
      binary64.decode (binary64.neg DBL_MAX) = some (-((2 - 1 / 2 ^ 52) * 2 ^ 1023)) ∧
      (∀ b w, binary64.decode b = some w →
        -((2 - 1 / 2 ^ 52) * 2 ^ 1023) ≤ w ∧ w ≤ (2 - 1 / 2 ^ 52) * 2 ^ 1023) ∧
      binary64.decode DBL_MIN = some (1 / 2 ^ 1022) ∧ binary64.isNormal DBL_MIN = true ∧
      (∀ b w, binary64.isNormal b = true → binary64.decode b = some w → 0 < w →
        1 / 2 ^ 1022 ≤ w) ∧
      binary64.decode DBL_TRUE_MIN = some (1 / 2 ^ 1074) ∧
      (∀ b w, binary64.decode b = some w → 0 < w → 1 / 2 ^ 1074 ≤ w)) ∧
    (Item.float (binary32.neg FLT_MAX) ∈ FloatingPointExample l ∧
      Item.float FLT_MAX ∈ FloatingPointExample l ∧
      Item.float FLT_MIN ∈ FloatingPointExample l ∧
      Item.float FLT_TRUE_MIN ∈ FloatingPointExample l ∧
      Item.double (binary64.neg DBL_MAX) ∈ FloatingPointExample l ∧
      Item.double DBL_MAX ∈ FloatingPointExample l ∧
      Item.double DBL_MIN ∈ FloatingPointExample l ∧
      Item.double DBL_TRUE_MIN ∈ FloatingPointExample l) := by
  have f1 : FLT_MAX = 0x7F7FFFFF := by decide!
  have f2 : binary32.neg FLT_MAX = 0xFF7FFFFF := by decide!
  have f3 : FLT_MIN = 0x00800000 := by decide!
  have f4 : FLT_TRUE_MIN = 0x00000001 := by decide!
  have d1 : DBL_MAX = 0x7FEFFFFFFFFFFFFF := by decide!
  have d2 : binary64.neg DBL_MAX = 0xFFEFFFFFFFFFFFFF := by decide!
  have d3 : DBL_MIN = 0x0010000000000000 := by decide!
  have d4 : DBL_TRUE_MIN = 0x0000000000000001 := by decide!
  have hb32 : 1 ≤ binary32.bias := by decide
  have hb64 : 1 ≤ binary64.bias := by decide
  refine ⟨⟨?_, ?_, ?_, ?_, ?_, ?_, ?_, ?_⟩, ⟨?_, ?_, ?_, ?_, ?_, ?_, ?_, ?_⟩, ?_⟩
  · rw [f1]
    norm_num [FloatFormat.decode, FloatFormat.expField, FloatFormat.expMax,
      FloatFormat.signBit, FloatFormat.fracField, FloatFormat.bias, binary32]
  · rw [f2]
    norm_num [FloatFormat.decode, FloatFormat.expField, FloatFormat.expMax,
      FloatFormat.signBit, FloatFormat.fracField, FloatFormat.bias, binary32]
  · intro b w hw
    have h := FloatFormat.decode_abs_le binary32 hb32 b w hw
    have e : ((((2 ^ (binary32.fbits + 1) - 1) * 2 ^ (binary32.expMax - 2) : ℕ) : ℚ)
        / 2 ^ binary32.unitExp) = (2 - 1 / 2 ^ 23) * 2 ^ 127 := by
      norm_num [binary32, FloatFormat.expMax, FloatFormat.unitExp, FloatFormat.bias]
    rw [e] at h
    exact abs_le.mp h
  · rw [f3]
    norm_num [FloatFormat.decode, FloatFormat.expField, FloatFormat.expMax,
      FloatFormat.signBit, FloatFormat.fracField, FloatFormat.bias, binary32]
  · rw [f3]
    decide
  · intro b w hn hw hpos
    have h := (FloatFormat.decode_pos_ge binary32 hb32 b w hw hpos).2 hn
    have e : ((2 : ℚ) ^ binary32.fbits / 2 ^ binary32.unitExp) = 1 / 2 ^ 126 := by
      norm_num [binary32, FloatFormat.unitExp, FloatFormat.bias]
    rw [e] at h
    exact h
  · rw [f4]
    norm_num [FloatFormat.decode, FloatFormat.expField, FloatFormat.expMax,
      FloatFormat.signBit, FloatFormat.fracField, FloatFormat.bias, binary32]
  · intro b w hw hpos
    have h := (FloatFormat.decode_pos_ge binary32 hb32 b w hw hpos).1
    have e : (1 / (2 : ℚ) ^ binary32.unitExp) = 1 / 2 ^ 149 := by
      norm_num [binary32, FloatFormat.unitExp, FloatFormat.bias]
    rw [e] at h
    exact h
  · rw [d1]
    norm_num [FloatFormat.decode, FloatFormat.expField, FloatFormat.expMax,
      FloatFormat.signBit, FloatFormat.fracField, FloatFormat.bias, binary64]
  · rw [d2]
    norm_num [FloatFormat.decode, FloatFormat.expField, FloatFormat.expMax,
      FloatFormat.signBit, FloatFormat.fracField, FloatFormat.bias, binary64]
  · intro b w hw
    have h := FloatFormat.decode_abs_le binary64 hb64 b w hw
    have e : ((((2 ^ (binary64.fbits + 1) - 1) * 2 ^ (binary64.expMax - 2) : ℕ) : ℚ)
        / 2 ^ binary64.unitExp) = (2 - 1 / 2 ^ 52) * 2 ^ 1023 := by
      norm_num [binary64, FloatFormat.expMax, FloatFormat.unitExp, FloatFormat.bias]
    rw [e] at h
    exact abs_le.mp h
  · rw [d3]
    norm_num [FloatFormat.decode, FloatFormat.expField, FloatFormat.expMax,
      FloatFormat.signBit, FloatFormat.fracField, FloatFormat.bias, binary64]
  · rw [d3]
    decide
  · intro b w hn hw hpos
    have h := (FloatFormat.decode_pos_ge binary64 hb64 b w hw hpos).2 hn
    have e : ((2 : ℚ) ^ binary64.fbits / 2 ^ binary64.unitExp) = 1 / 2 ^ 1022 := by
      norm_num [binary64, FloatFormat.unitExp, FloatFormat.bias]
    rw [e] at h
    exact h
  · rw [d4]
    norm_num [FloatFormat.decode, FloatFormat.expField, FloatFormat.expMax,
      FloatFormat.signBit, FloatFormat.fracField, FloatFormat.bias, binary64]
  · intro b w hw hpos
    have h := (FloatFormat.decode_pos_ge binary64 hb64 b w hw hpos).1
    have e : (1 / (2 : ℚ) ^ binary64.unitExp) = 1 / 2 ^ 1074 := by
      norm_num [binary64, FloatFormat.unitExp, FloatFormat.bias]
    rw [e] at h
    exact h
  · simp [FloatingPointExample]

/-! ## Whole numbers in single precision -/

/-- Every natural number up to `2 ^ 24` is the magnitude, in whole numbers, of a finite
positive single-precision pattern. -/
theorem binary32_nat_representable (k : Nat) (hk : k ≤ 2 ^ 24) :
    ∃ b, b < 2 ^ 31 ∧ binary32.signBit b = 0 ∧ binary32.expField b < binary32.expMax ∧
      binary32.mag b = k * 2 ^ 149 := by
  have hf : binary32.fbits = 23 := rfl
  have hinf : binary32.inf = 255 * 2 ^ 23 := by decide
  by_cases h0 : k = 0
  · subst h0
    exact ⟨0, by decide, by decide, by decide, by decide⟩
  by_cases htop : k = 2 ^ 24
  · subst htop
    exact ⟨0x4B800000, by decide, by decide, by decide, by decide!⟩
  have hlt : k < 2 ^ 24 := Nat.lt_of_le_of_ne hk htop
  obtain ⟨h1, h2⟩ := FloatFormat.bitLen_spec k k (Nat.le_refl k)
  have h2' := h2 h0
  generalize FloatFormat.bitLen k k = L at h1 h2'
  have hL0 : L ≠ 0 := by
    intro h
    rw [h] at h1
    simp at h1
    exact h0 h1
  have hL24 : L ≤ 24 := by
    by_contra hcon
    have : 2 ^ 24 ≤ 2 ^ (L - 1) := Nat.pow_le_pow_right (by norm_num) (by omega)
    omega
  obtain ⟨j, rfl⟩ : ∃ j, L = j + 1 := ⟨L - 1, by omega⟩
  rw [Nat.add_sub_cancel] at h2'
  have hj : j ≤ 23 := by omega
  have e23 : 2 ^ j * 2 ^ (23 - j) = 2 ^ 23 := by
    rw [← pow_add]
    congr 1
    omega
  have e24 : 2 ^ (j + 1) * 2 ^ (23 - j) = 2 ^ 24 := by
    rw [← pow_add]
    congr 1
    omega
  have hm1 : 2 ^ 23 ≤ k * 2 ^ (23 - j) := by
    rw [← e23]
    exact Nat.mul_le_mul_right _ h2'
  have hm2 : k * 2 ^ (23 - j) < 2 ^ 24 := by
    rw [← e24]
    exact Nat.mul_lt_mul_of_pos_right h1 (Nat.two_pow_pos _)
  have hfin : (126 + j) * 2 ^ binary32.fbits + k * 2 ^ (23 - j) < binary32.inf := by
    rw [hf, hinf]
    have : (126 + j) * 2 ^ 23 ≤ 149 * 2 ^ 23 := Nat.mul_le_mul_right _ (by omega)
    omega
  obtain ⟨g1, g2, g3⟩ := FloatFormat.mag_encode binary32 (126 + j) (k * 2 ^ (23 - j))
    (by rw [hf]; exact Nat.le_of_lt hm2) (Or.inr (by rw [hf]; exact hm1)) hfin
  refine ⟨_, ?_, g3, g2, ?_⟩
  · rw [hinf] at hfin
    omega
  · rw [g1, Nat.mul_assoc, ← pow_add]
    congr 2
    omega

/-- C11: every integer `n` with `-2^24 ≤ n ≤ 2^24` is exactly representable in single
precision: some 32-bit pattern (sign 1 bit, exponent 8 bits, fraction 23 bits) has
exactly the value `n`. -/
theorem C11_integers_exactly_representable (n : Int) (hlo : -2 ^ 24 ≤ n) (hhi : n ≤ 2 ^ 24) :
    ∃ b, b < 2 ^ 32 ∧ binary32.decode b = some (n : ℚ) := by
  have hb : 1 ≤ binary32.bias := by decide
  have hu : binary32.unitExp = 149 := by decide
  have hc : ∀ x : ℚ, x * 2 ^ 149 / 2 ^ 149 = x := fun x =>
    mul_div_cancel_right₀ x (by positivity)
  obtain ⟨k, hk, hn⟩ : ∃ k : ℕ, k ≤ 2 ^ 24 ∧ (n = (k : ℤ) ∨ n = -(k : ℤ)) :=
    ⟨n.natAbs, by omega, by omega⟩
  obtain ⟨b, hb31, hs, he, hm⟩ := binary32_nat_representable k hk
  rcases hn with rfl | rfl
  · refine ⟨b, by omega, ?_⟩
    rw [FloatFormat.decode_eq_key binary32 hb _ (by simpa [FloatFormat.isFinite] using he),
      FloatFormat.key_of_signBit_zero binary32 b hs, hm, hu]
    congr 1
    simp only [Nat.cast_mul, Nat.cast_pow, Nat.cast_ofNat, Int.cast_mul, Int.cast_pow,
      Int.cast_natCast, Int.cast_ofNat]
    exact hc _
  · have hsm : binary32.signMask = 2 ^ 31 := by decide
    obtain ⟨k1, k2⟩ := FloatFormat.key_signMask_add binary32 b (by rw [hsm]; exact hb31)
    refine ⟨binary32.signMask + b, by rw [hsm]; omega, ?_⟩
    rw [FloatFormat.decode_eq_key binary32 hb _ (by simpa [FloatFormat.isFinite, k1] using he),
      k2, hm, hu]
    congr 1
    simp only [Nat.cast_mul, Nat.cast_pow, Nat.cast_ofNat, Int.cast_mul, Int.cast_pow,
      Int.cast_natCast, Int.cast_ofNat, Int.cast_neg]
    rw [neg_div, hc]

/-- C11 at the two ends of the range and at 42: the patterns found are those that the
conversion of the literals gives. -/
theorem C11_integers_exactly_representable_witness :
    (-2 ^ 24 ≤ (16777216 : Int) ∧ (16777216 : Int) ≤ 2 ^ 24 ∧
      ∃ b, b < 2 ^ 32 ∧ binary32.decode b = some ((16777216 : Int) : ℚ)) ∧
    binary32.decode (binary32.lit 16777216 1) = some 16777216 ∧
    binary32.decode (binary32.neg (binary32.lit 16777216 1)) = some (-16777216) ∧
    binary32.decode (binary32.lit 42 1) = some 42 :=
  ⟨⟨by decide, by decide, C11_integers_exactly_representable 16777216 (by decide) (by decide)⟩,
    by
      have h : binary32.lit 16777216 1 = 0x4B800000 := by decide!
      rw [h]
      norm_num [FloatFormat.decode, FloatFormat.expField, FloatFormat.expMax,
        FloatFormat.signBit, FloatFormat.fracField, FloatFormat.bias, binary32],
    by
      have h : binary32.neg (binary32.lit 16777216 1) = 0xCB800000 := by decide!
      rw [h]
      norm_num [FloatFormat.decode, FloatFormat.expField, FloatFormat.expMax,
        FloatFormat.signBit, FloatFormat.fracField, FloatFormat.bias, binary32],
    by
      have h : binary32.lit 42 1 = 0x42280000 := by decide!
      rw [h]
      norm_num [FloatFormat.decode, FloatFormat.expField, FloatFormat.expMax,
        FloatFormat.signBit, FloatFormat.fracField, FloatFormat.bias, binary32]⟩

/-- On operands that have a value, the operator `<=` compares the values. -/
theorem FloatFormat.le_iff_value_le (φ : FloatFormat) (hφ : 1 ≤ φ.bias) (a b : Nat)
    (va vb : ℚ) (ha : φ.decode a = some va) (hb : φ.decode b = some vb) :
    φ.le a b = true ↔ va ≤ vb := by
  have fa := φ.isFinite_of_decode a va ha
  have fb := φ.isFinite_of_decode b vb hb
  have hu : (0 : ℚ) < 2 ^ φ.unitExp := by positivity
  rw [φ.decode_value hφ a va ha, φ.decode_value hφ b vb hb, div_le_div_iff_of_pos_right hu]
  simp only [FloatFormat.le, φ.isNaN_of_isFinite a fa, φ.isNaN_of_isFinite b fb, Bool.not_false,
    Bool.true_and, decide_eq_true_eq]
  exact Int.cast_le.symm

/-- C12: the test `Vec3_DotProduct(position, normal) <= FLT_EPSILON` is one-sided: it
succeeds exactly when the dot product is at most `FLT_EPSILON`, hence for every negative
dot product, and so it is not the test `|d| <= FLT_EPSILON`: for the position
`(-1, 0, 0)` and the normal `(1, 0, 0)` the dot product is exactly -1 and the test
succeeds although the absolute value 1 exceeds `FLT_EPSILON`. -/
theorem C12_tolerance_test_is_one_sided :
    (∀ d v, binary32.decode d = some v →
      (binary32.le d FLT_EPSILON = true ↔ v ≤ 1 / 2 ^ 23)) ∧
    (∀ d v, binary32.decode d = some v → v < 0 → binary32.le d FLT_EPSILON = true) ∧
    (binary32.decode (binary32.neg (binary32.lit 1 1)) = some (-1) ∧
      binary32.decode (binary32.lit 1 1) = some 1 ∧
      binary32.decode (binary32.lit 0 1) = some 0 ∧
      binary32.decode (Vec3_DotProduct
        ⟨binary32.neg (binary32.lit 1 1), binary32.lit 0 1, binary32.lit 0 1⟩
        ⟨binary32.lit 1 1, binary32.lit 0 1, binary32.lit 0 1⟩) = some (-1) ∧
      (-1 : ℚ) * 1 + 0 * 0 + 0 * 0 = -1 ∧
      binary32.le (Vec3_DotProduct
        ⟨binary32.neg (binary32.lit 1 1), binary32.lit 0 1, binary32.lit 0 1⟩
        ⟨binary32.lit 1 1, binary32.lit 0 1, binary32.lit 0 1⟩) FLT_EPSILON = true ∧
      ¬ |(-1 : ℚ)| ≤ 1 / 2 ^ 23) ∧
    ¬ (∀ d v, binary32.decode d = some v →
      (binary32.le d FLT_EPSILON = true ↔ |v| ≤ 1 / 2 ^ 23)) := by
  have hb : 1 ≤ binary32.bias := by decide
  have heps : FLT_EPSILON = 0x34000000 := by decide!
  have veps : binary32.decode FLT_EPSILON = some (1 / 2 ^ 23) := by
    rw [heps]
    norm_num [FloatFormat.decode, FloatFormat.expField, FloatFormat.expMax,
      FloatFormat.signBit, FloatFormat.fracField, FloatFormat.bias, binary32]
  have hiff : ∀ d v, binary32.decode d = some v →
      (binary32.le d FLT_EPSILON = true ↔ v ≤ 1 / 2 ^ 23) := fun d v hd =>
    FloatFormat.le_iff_value_le binary32 hb d FLT_EPSILON v _ hd veps
  have hdot : Vec3_DotProduct
      ⟨binary32.neg (binary32.lit 1 1), binary32.lit 0 1, binary32.lit 0 1⟩
      ⟨binary32.lit 1 1, binary32.lit 0 1, binary32.lit 0 1⟩ = 0xBF800000 := by decide!
  have vm1 : binary32.decode 0xBF800000 = some (-1) := by
    norm_num [FloatFormat.decode, FloatFormat.expField, FloatFormat.expMax,
      FloatFormat.signBit, FloatFormat.fracField, FloatFormat.bias, binary32]
  have hle : binary32.le 0xBF800000 FLT_EPSILON = true :=
    (hiff _ _ vm1).mpr (by norm_num)
  have habs : ¬ |(-1 : ℚ)| ≤ 1 / 2 ^ 23 := by norm_num
  refine ⟨hiff, fun d v hd hv => (hiff d v hd).mpr ?_, ⟨?_, ?_, ?_, ?_, by norm_num, ?_, habs⟩,
    fun hall => habs ((hall _ _ vm1).mp hle)⟩
  · have : (0 : ℚ) < 1 / 2 ^ 23 := by positivity
    linarith
  · have h : binary32.neg (binary32.lit 1 1) = 0xBF800000 := by decide!
    rw [h]
    exact vm1
  · have h : binary32.lit 1 1 = 0x3F800000 := by decide!
    rw [h]
    norm_num [FloatFormat.decode, FloatFormat.expField, FloatFormat.expMax,
      FloatFormat.signBit, FloatFormat.fracField, FloatFormat.bias, binary32]
  · have h : binary32.lit 0 1 = 0 := by decide!
    rw [h]
    exact (FloatFormat.decode_zero binary32 hb).1
  · rw [hdot]
    exact vm1
  · rw [hdot]
    exact hle
